import Mathlib

/-!
# Verification of the roadblock-td navigation core

A shallow embedding of the pathfinding, invalidation and tower-placement
code of the roadblock-td repository, together with theorems settling the
specification claims.

Sources embedded:
* `src/enemy/path_finding.rs` — `try_get_target` (A*), `enemy_get_path`,
  `check_for_broken_paths`, `move_enemies`, `EnemyPath`, `PathChangedEvent`.
* `src/tower/mod.rs` — `Tower::fill_grid`, `Tower::clear_grid`, `Tower::size`,
  `TowerType`.
* `src/tower/placing.rs` — `place_tower` (grid-mutation core).
* `src/main.rs` — `Orientation`.

The `grid` module (`src/grid.rs`: `GridPos::distance_to`,
`GridPos::neighbors`, `Grid::is_free`, `ROWS`/`COLUMNS`) is not part of the
provided sources; those operations are modelled from the spec where noted.
Bevy `Entity` identifiers are modelled as `Nat`; continuous world positions
(`Vec3`) and sprite/animation state are abstracted by type parameters, since
no claim depends on their numeric content.
-/

namespace RoadblockTD

/-- Grid coordinate (`GridPos` in the source): integer row and column. -/
structure GridPos where
  row : Int
  col : Int
deriving DecidableEq, Repr

/-- `GridPos::new(row, col)`. -/
def GridPos.new (row col : Int) : GridPos := ⟨row, col⟩

/-- Modelled from the spec: `GridPos::distance_to` lives in the missing
`grid.rs`; the spec fixes it as the admissible Manhattan distance. -/
def GridPos.distance_to (a b : GridPos) : Nat :=
  (a.row - b.row).natAbs + (a.col - b.col).natAbs

/-- Bevy `Entity` identifiers, modelled as naturals. -/
abbrev Entity := Nat

section AList

variable {κ α : Type} [DecidableEq κ]

/-- Lookup in an association list (models `HashMap::get`). -/
def alookup : List (κ × α) → κ → Option α
  | [], _ => none
  | e :: m, k => if e.1 = k then some e.2 else alookup m k

/-- Remove a key (models `HashMap::remove`). -/
def aerase : List (κ × α) → κ → List (κ × α)
  | [], _ => []
  | e :: m, k => if e.1 = k then aerase m k else e :: aerase m k

/-- Insert/replace a key (models `HashMap::insert`). -/
def ainsert (m : List (κ × α)) (k : κ) (v : α) : List (κ × α) :=
  (k, v) :: aerase m k

end AList

/-! ## Grid model

The fixed-size grid. `ROWS` and `COLUMNS` are constants of the missing
`grid.rs`, so every definition that needs them takes explicit bounds. -/

/-- Grid bounds (the `ROWS` and `COLUMNS` constants of the missing `grid.rs`). -/
structure Bounds where
  rows : Int
  cols : Int
deriving DecidableEq, Repr

/-- Within-bounds test, matching the explicit bound checks in
`place_tower` (`pos.col > COLUMNS - 1 || pos.col < 0 || pos.row > ROWS - 1 || pos.row < 0`). -/
def inBounds (b : Bounds) (p : GridPos) : Bool :=
  0 ≤ p.row && p.row ≤ b.rows - 1 && 0 ≤ p.col && p.col ≤ b.cols - 1

/-- The four candidate 4-neighbor coordinates of a tile. -/
def neighborTiles (p : GridPos) : List GridPos :=
  [⟨p.row + 1, p.col⟩, ⟨p.row - 1, p.col⟩, ⟨p.row, p.col + 1⟩, ⟨p.row, p.col - 1⟩]

/-- Modelled from the spec: `GridPos::neighbors` lives in the missing
`grid.rs`; the spec fixes it as the up-to-4 grid-adjacent in-bounds tiles,
each paired with its current occupant if any. -/
def neighbors (b : Bounds) (tiles : List (GridPos × Entity)) (p : GridPos) :
    List (GridPos × Option Entity) :=
  ((neighborTiles p).filter (fun q => inBounds b q)).map (fun q => (q, alookup tiles q))

/-- Modelled from the spec: `Grid::is_free` lives in the missing `grid.rs`;
the spec fixes it as absent from the occupancy map and within grid bounds. -/
def isFree (b : Bounds) (tiles : List (GridPos × Entity)) (p : GridPos) : Bool :=
  (alookup tiles p).isNone && inBounds b p

/-! ## The A* search (`try_get_target`) -/

/-- Enemy data used by the search (`Enemy { current, goal, .. }`). -/
structure Enemy where
  current : GridPos
  goal : GridPos
deriving DecidableEq, Repr

/-- One frontier record of `try_get_target`: the open map stores
`(f_cost, g_cost, parent, tower_entity)` per tile. -/
structure OpenData where
  f : Nat
  g : Nat
  parent : GridPos
  tower : Option Entity
deriving DecidableEq, Repr

/-- One comparison step of `min_by`: keep the incoming element when its
`f_cost` is lower or equal (Rust's `min_by` keeps the last of equally
minimal elements). -/
def selMinStep (acc : Option (GridPos × OpenData)) (e : GridPos × OpenData) :
    Option (GridPos × OpenData) :=
  match acc with
  | none => some e
  | some b => if e.2.f ≤ b.2.f then some e else some b

/-- The frontier-minimum selection
`open.iter().min_by(|x, y| x.1.0.cmp(&y.1.0))`: some entry of minimal
`f_cost`. -/
def selectMin (l : List (GridPos × OpenData)) : Option (GridPos × OpenData) :=
  l.foldl selMinStep none

/-- The frontier entry `try_get_target` writes when relaxing the neighbor
`nb` of `tile`, whose stored occupant is `tower` and `g_cost` is `g`:
`(new_nb_g_cost + h(neighbor), new_nb_g_cost, tile, nb_tower_entity)` where
`new_nb_g_cost` adds 1 on equal occupant and 10 otherwise. -/
def relaxEntry (goal : GridPos) (g : Nat) (tower : Option Entity) (tile : GridPos)
    (nb : GridPos × Option Entity) : OpenData :=
  ⟨g + (if nb.2 = tower then 1 else 10) + nb.1.distance_to goal,
   g + (if nb.2 = tower then 1 else 10), tile, nb.2⟩

/-- One pass of the neighbor-relaxation body of `try_get_target`: skip closed
neighbors, compute the tentative `g_cost` (`+1` on equal occupant, `+10`
otherwise), and insert unless an entry with a lower-or-equal `g_cost` exists. -/
def expandNeighbor (goal : GridPos) (g : Nat) (tower : Option Entity) (tile : GridPos)
    (closed : List (GridPos × GridPos)) (opn : List (GridPos × OpenData))
    (nb : GridPos × Option Entity) : List (GridPos × OpenData) :=
  if (alookup closed nb.1).isSome then opn
  else
    match alookup opn nb.1 with
    | some d =>
        if g + (if nb.2 = tower then 1 else 10) < d.g then
          ainsert opn nb.1 (relaxEntry goal g tower tile nb)
        else opn
    | none => ainsert opn nb.1 (relaxEntry goal g tower tile nb)

/-- The full neighbor loop `for (neighbor, nb_tower_entity) in tile.neighbors(tiles)`. -/
def expandList (goal : GridPos) (g : Nat) (tower : Option Entity) (tile : GridPos)
    (closed : List (GridPos × GridPos)) :
    List (GridPos × Option Entity) → List (GridPos × OpenData) → List (GridPos × OpenData)
  | [], opn => opn
  | nb :: rest, opn =>
      expandList goal g tower tile closed rest (expandNeighbor goal g tower tile closed opn nb)

/-- The `while let Some(..) = open.iter().min_by(..)` loop of `try_get_target`.
The Rust loop terminates because each iteration moves one tile into the
closed map and only boundedly many tiles exist; the fuel argument makes that
explicit and is proved sufficient below. -/
def astarLoop (b : Bounds) (tiles : List (GridPos × Entity)) (goal : GridPos) :
    Nat → List (GridPos × OpenData) → List (GridPos × GridPos) →
    Option (List (GridPos × GridPos))
  | 0, _, _ => none
  | fuel + 1, opn, closed =>
      match selectMin opn with
      | none => none
      | some (tile, d) =>
          let opn' := aerase opn tile
          let closed' := ainsert closed tile d.parent
          if tile = goal then some closed'
          else
            astarLoop b tiles goal fuel
              (expandList goal d.g d.tower tile closed' (neighbors b tiles tile) opn')
              closed'

/-- Fuel that dominates the iteration count of the search loop: the closed
map only ever holds in-bounds tiles plus the start tile. -/
def searchFuel (b : Bounds) : Nat :=
  b.rows.toNat * b.cols.toNat + 2

/-- `try_get_target`: seeds the frontier with the enemy's current tile at
`g_cost = 0`, occupant `none`, and runs the A* loop; returns the closed
tile-to-parent map on success. -/
def tryGetTarget (b : Bounds) (tiles : List (GridPos × Entity)) (enemy : Enemy) :
    Option (List (GridPos × GridPos)) :=
  let distance := enemy.current.distance_to enemy.goal
  astarLoop b tiles enemy.goal (searchFuel b)
    [(enemy.current, ⟨distance, 0, enemy.current, none⟩)] []

/-- The route-reconstruction loop of the `get_path` closure in
`enemy_get_path` (`while current != enemy.current { path.push(current);
current = closed[&current]; }`). The Rust loop terminates (and its map
lookups succeed) in every state the search can produce; the fuel argument
makes that explicit and is proved sufficient below. -/
def getPathAux (closed : List (GridPos × GridPos)) (start : GridPos) :
    Nat → GridPos → List GridPos → List GridPos
  | 0, _, acc => acc
  | fuel + 1, current, acc =>
      if current = start then acc
      else
        match alookup closed current with
        | some p => getPathAux closed start fuel p (acc ++ [current])
        | none => acc ++ [current]

/-- The `get_path` closure of `enemy_get_path`: walk parent pointers from the
goal back to the enemy's current tile, goal-first, excluding the start. -/
def getPath (closed : List (GridPos × GridPos)) (enemy : Enemy) : List GridPos :=
  getPathAux closed enemy.current (closed.length + 1) enemy.goal []

/-! ## Routes, events, agents -/

/-- Facing direction (`Orientation` in `src/main.rs`). -/
inductive Orientation
  | Up
  | Down
  | Left
  | Right
deriving DecidableEq, Repr

/-- `Orientation::is_horizontal`. -/
def Orientation.is_horizontal : Orientation → Bool
  | .Up | .Down => false
  | .Left | .Right => true

/-- `EnemyPath { steps, next }`; the continuous interpolation target `next`
is a `Vec3` in the source, abstracted to a type parameter `V`. -/
structure EnemyPath (V : Type) where
  steps : List GridPos
  next : Option V
deriving DecidableEq, Repr

/-- `PathChangedEvent { changed, now_free }`. -/
structure PathChangedEvent where
  changed : List GridPos
  now_free : Bool
deriving DecidableEq, Repr

/-- `PathChangedEvent::now_free(freed)`. -/
def PathChangedEvent.mkNowFree (freed : List GridPos) : PathChangedEvent :=
  ⟨freed, true⟩

/-- `PathChangedEvent::now_blocked(blocked)`. -/
def PathChangedEvent.mkNowBlocked (blocked : List GridPos) : PathChangedEvent :=
  ⟨blocked, false⟩

/-- One mobile unit as the systems see it: the `Enemy` component
(`current`, `goal`, `orientation`; the behavioral variant is a closed
one-element enumeration and carries no data the claims depend on), the
optional `EnemyPath` and `Attacking` components, plus the sprite/animation
state (abstracted to `A`) and the `Transform` translation (abstracted to
`V`). -/
structure Agent (V A : Type) where
  current : GridPos
  goal : GridPos
  orientation : Orientation
  path : Option (EnemyPath V)
  attacking : Option Entity
  visual : A
  pos : V
deriving DecidableEq, Repr

/-- Boolean membership in a tile list (`Vec::contains`). -/
def memB (x : GridPos) (l : List GridPos) : Bool :=
  l.any (fun t => t = x)

/-- The event-draining loop at the top of `check_for_broken_paths`: collect
the tiles of all "now free" (resp. "now blocked") events in order. -/
def drained (events : List PathChangedEvent) (free : Bool) : List GridPos :=
  (events.filter (fun e => e.now_free = free)).flatMap (fun e => e.changed)

/-- `check_for_broken_paths`: if any tile was freed, strip `EnemyPath` and
`Attacking` from every agent holding an `EnemyPath` (the system's query only
sees entities with an `EnemyPath`); otherwise drop the `EnemyPath` of every
agent whose route contains a blocked tile, except when the blocked tile is
the route's consumption end (`steps.last()`). -/
def checkForBrokenPaths {V A : Type} (events : List PathChangedEvent)
    (agents : List (Agent V A)) : List (Agent V A) :=
  let freed := drained events true
  let blocked := drained events false
  if freed.isEmpty then
    agents.map (fun a =>
      match a.path with
      | none => a
      | some p =>
          if (match p.steps.getLast? with
              | some tile => memB tile blocked
              | none => false) then a
          else if p.steps.any (fun tile => memB tile blocked) then
            { a with path := none }
          else a)
  else
    agents.map (fun a =>
      if a.path.isSome then { a with path := none, attacking := none } else a)

/-- `enemy_get_path`: iterate the agents the query sees (those with neither
an `EnemyPath` nor an `Attacking` component; all others pass through
untouched), run the search, and on the first non-empty reconstructed path
insert it and return. A `none` entry in the result marks an agent despawned
because no path was found; other agents keep their position in the list. -/
def enemyGetPath {V A : Type} (b : Bounds) (tiles : List (GridPos × Entity)) :
    List (Agent V A) → List (Option (Agent V A))
  | [] => []
  | a :: rest =>
      if a.path.isNone && a.attacking.isNone then
        match tryGetTarget b tiles ⟨a.current, a.goal⟩ with
        | some closed =>
            let p := getPath closed ⟨a.current, a.goal⟩
            if p.isEmpty then some a :: enemyGetPath b tiles rest
            else some { a with path := some ⟨p, none⟩ } :: rest.map some
        | none => none :: enemyGetPath b tiles rest
      else some a :: enemyGetPath b tiles rest

/-- The facing computed by `move_enemies` from the delta between the current
tile and the popped waypoint. -/
def popOrientation (cur tile : GridPos) : Orientation :=
  match decide (tile.row > cur.row), decide (tile.col > cur.col) with
  | true, false => .Up
  | false, true => .Right
  | _, _ => if tile.row < cur.row then .Down else .Left

/-- Result of processing one agent inside `move_enemies`: either the loop
continues with the updated agent, or the whole system returns (`halt`),
with `none` marking a despawned agent. -/
inductive MoveOutcome (V A : Type)
  | cont (a : Agent V A)
  | halt (a : Option (Agent V A))

section Move

variable {V A : Type}

/-- Continuous-interpolation tail of `move_enemies`: advance the translation
toward the target and clear the target once within step distance. The
floating-point update (`normalize`, `delta_secs`, `distance`) is abstracted:
`glide old target` is the new translation and `reachedFn old new target`
the clearing test. -/
def glideUpdate (glide : V → V → V) (reachedFn : V → V → V → Bool)
    (a : Agent V A) (p : EnemyPath V) (nextv : V) : Agent V A :=
  let newPos := glide a.pos nextv
  { a with
    pos := newPos
    path := some { p with next := if reachedFn a.pos newPos nextv then none else some nextv } }

/-- One iteration of the `move_enemies` loop body for an agent holding the
path `p`. `worldOf tile` abstracts
`grid_to_world_coords(tile).extend(2.) + enemy.offset()`, and
`walkVisual`/`attackVisual` abstract the animation-config and sprite
replacement for the respective pose. -/
def moveStep (worldOf : GridPos → V) (glide : V → V → V)
    (reachedFn : V → V → V → Bool) (walkVisual attackVisual : Orientation → A)
    (tiles : List (GridPos × Entity)) (a : Agent V A) (p : EnemyPath V) :
    MoveOutcome V A :=
  match p.next with
  | some nextv => .cont (glideUpdate glide reachedFn a p nextv)
  | none =>
      match p.steps.getLast? with
      | some tile =>
          let rest := p.steps.dropLast
          let orient := popOrientation a.current tile
          match alookup tiles tile with
          | some tw =>
              .halt (some { a with
                orientation := orient
                path := none
                attacking := some tw
                visual := attackVisual orient })
          | none =>
              let nextv := worldOf tile
              .cont (glideUpdate glide reachedFn
                { a with
                  orientation := orient
                  visual := if orient = a.orientation then a.visual else walkVisual orient
                  current := tile }
                ⟨rest, some nextv⟩ nextv)
      | none => .halt none

/-- `move_enemies`: process the agents the query sees (those holding an
`EnemyPath`) in order; a `halt` outcome models the `return` statements that
end the whole system, leaving every later agent untouched. A `none` entry
marks the agent despawned on arrival. -/
def moveEnemies (worldOf : GridPos → V) (glide : V → V → V)
    (reachedFn : V → V → V → Bool) (walkVisual attackVisual : Orientation → A)
    (tiles : List (GridPos × Entity)) :
    List (Agent V A) → List (Option (Agent V A))
  | [] => []
  | a :: rest =>
      match a.path with
      | none => some a :: moveEnemies worldOf glide reachedFn walkVisual attackVisual tiles rest
      | some p =>
          match moveStep worldOf glide reachedFn walkVisual attackVisual tiles a p with
          | .cont a' =>
              some a' :: moveEnemies worldOf glide reachedFn walkVisual attackVisual tiles rest
          | .halt o => o :: rest.map some

end Move

/-! ## Towers and the grid index (`src/tower/mod.rs`, `src/tower/placing.rs`) -/

/-- `TowerType`. -/
inductive TowerType
  | Wall
  | SpikedWall
  | Canon
deriving DecidableEq, Repr

/-- `TowerType::size`. -/
def TowerType.size : TowerType → Int × Int
  | .Wall => (1, 1)
  | .SpikedWall => (1, 1)
  | .Canon => (3, 3)

/-- `TowerType::cost`. -/
def TowerType.cost : TowerType → Int
  | .Wall => 2
  | .SpikedWall => 5
  | .Canon => 50

/-- The `Tower` component fields the grid mutators use (the attack timer and
hit points play no role in the claims). -/
structure Tower where
  variant : TowerType
  orientation : Orientation
deriving DecidableEq, Repr

/-- `Tower::size`: the variant size, with dimensions flipped when rotated. -/
def Tower.size (t : Tower) : Int × Int :=
  let s := t.variant.size
  if t.orientation.is_horizontal then (s.2, s.1) else s

/-- The grid-index fields of the `Grid` resource the mutators touch:
`towers : HashMap<GridPos, Entity>` and `tower_origins : HashMap<Entity, GridPos>`. -/
structure Grid where
  towers : List (GridPos × Entity)
  tower_origins : List (Entity × GridPos)
deriving DecidableEq, Repr

/-- Integer loop range `0..n` (empty when `n ≤ 0`, as in Rust). -/
def intRange (n : Int) : List Int :=
  (List.range n.toNat).map (fun i => (i : Int))

/-- The tile set enumerated by both the free-space check of `place_tower`
and the loops of `fill_grid`/`clear_grid`: column offsets range over the
first size component and row offsets over the second, in loop order. -/
def footprint (origin : GridPos) (size : Int × Int) : List GridPos :=
  (intRange size.1).flatMap
    (fun i => (intRange size.2).map (fun j => GridPos.new (origin.row + j) (origin.col + i)))

/-- `Tower::fill_grid`: record the origin, insert every footprint tile
mapped to the entity, and return the blocked tile list. -/
def Tower.fill_grid (t : Tower) (origin : GridPos) (grid : Grid) (entity : Entity) :
    Grid × List GridPos :=
  let fp := footprint origin t.size
  ({ towers := fp.foldl (fun m pos => ainsert m pos entity) grid.towers
     tower_origins := ainsert grid.tower_origins entity origin }, fp)

/-- `Tower::clear_grid`: if the entity has no recorded origin, return the
empty tile list without touching the grid; otherwise remove the origin and
every footprint tile and return the freed tile list. -/
def Tower.clear_grid (t : Tower) (grid : Grid) (entity : Entity) :
    Grid × List GridPos :=
  match alookup grid.tower_origins entity with
  | none => (grid, [])
  | some origin =>
      let fp := footprint origin t.size
      ({ towers := fp.foldl (fun m pos => aerase m pos) grid.towers
         tower_origins := aerase grid.tower_origins entity }, fp)

/-- The state `place_tower` reads and writes besides the ECS spawn: the grid
index, the `Currency` resource, the `money_spend` statistic, and the
`PathChangedEvent` writer. -/
structure PlaceState where
  grid : Grid
  currency : Int
  money_spend : Int
  events : List PathChangedEvent
deriving DecidableEq, Repr

/-- The state-mutating core of `place_tower`, entered once the cursor has
been projected to `grid_pos` and the preview offset applied: bail out when
currency is insufficient, when any footprint tile is not free, or when any
footprint tile is out of bounds (the per-tile early returns are equivalent
to the conjunctive check); otherwise deduct the cost, record the statistic,
fill the grid, and emit one "now blocked" event with the filled tiles.
`entity` is the id the ECS assigns to the freshly spawned tower. -/
def placeTower (b : Bounds) (tower : Tower) (grid_pos : GridPos) (entity : Entity)
    (st : PlaceState) : PlaceState :=
  if st.currency < tower.variant.cost then st
  else if (footprint grid_pos tower.size).all
      (fun pos => isFree b st.grid.towers pos && inBounds b pos) then
    let (grid', blocked) := tower.fill_grid grid_pos st.grid entity
    { grid := grid'
      currency := st.currency - tower.variant.cost
      money_spend := st.money_spend + tower.variant.cost
      events := st.events ++ [PathChangedEvent.mkNowBlocked blocked] }
  else st

/-! ## Routes in the grid graph

The cost model of §4.2: a hop is valid when it moves to a 4-adjacent
in-bounds tile; it costs 1 when the target's occupant equals the occupant
recorded for the source (the start tile's occupant is seeded as `none`),
and 10 otherwise. -/

/-- One valid hop: to a 4-adjacent, in-bounds tile. -/
def ValidStep (b : Bounds) (p q : GridPos) : Prop :=
  q ∈ neighborTiles p ∧ inBounds b q = true

instance (b : Bounds) (p q : GridPos) : Decidable (ValidStep b p q) := by
  unfold ValidStep
  infer_instance

/-- The occupant the search records for a tile: `none` for the seeded start
tile, the occupancy-map entry otherwise. -/
def occAt (tiles : List (GridPos × Entity)) (start p : GridPos) : Option Entity :=
  if p = start then none else alookup tiles p

/-- Cost of the hop from `p` to `q`. -/
def hopCost (tiles : List (GridPos × Entity)) (start p q : GridPos) : Nat :=
  if alookup tiles q = occAt tiles start p then 1 else 10

/-- Total cost of a hop sequence starting at `p`. -/
def routeCost (tiles : List (GridPos × Entity)) (start : GridPos) :
    GridPos → List GridPos → Nat
  | _, [] => 0
  | p, q :: rest => hopCost tiles start p q + routeCost tiles start q rest

/-- A route from `start` to `goal`: the list of visited tiles after `start`,
chained by valid hops, ending at `goal` (empty when `start = goal`). -/
def IsRouteTo (b : Bounds) (start goal : GridPos) (rest : List GridPos) : Prop :=
  List.Chain (ValidStep b) start rest ∧
    (start :: rest).getLast (List.cons_ne_nil _ _) = goal

/-- The minimum achievable route cost from `start` to `goal`. -/
def IsMinCostTo (b : Bounds) (tiles : List (GridPos × Entity))
    (start goal : GridPos) (c : Nat) : Prop :=
  (∃ rest, IsRouteTo b start goal rest ∧ routeCost tiles start start rest = c) ∧
    ∀ rest, IsRouteTo b start goal rest → c ≤ routeCost tiles start start rest

/-- The parent-pointer chain of a closed map: `rest` lists the tiles from
the first hop after `start` up to `u`, each recorded with its predecessor. -/
inductive ParentChain (closed : List (GridPos × GridPos)) (start : GridPos) :
    GridPos → List GridPos → Prop
  | nil : ParentChain closed start start []
  | cons {u p rest} : u ≠ start → alookup closed u = some p →
      ParentChain closed start p rest → ParentChain closed start u (rest ++ [u])

/-- Every in-bounds tile, enumerated; used only to bound the iteration count
of the search loop. -/
def allTiles (b : Bounds) : List GridPos :=
  (List.range b.rows.toNat).flatMap
    (fun i => (List.range b.cols.toNat).map
      (fun j => GridPos.new (Int.ofNat i) (Int.ofNat j)))

/-- The loop invariant of `try_get_target`: well-formed key sets, frontier
entries carry their seeding data (occupant from the map, `f = g + h`, and a
`g_cost` realized through a closed parent of minimal cost — or the seeded
start entry), the closed map is a tree of minimal-cost parent chains rooted
at the start tile, and every edge leaving the closed region is relaxed in
the frontier. -/
structure AInv (b : Bounds) (tiles : List (GridPos × Entity))
    (start goal : GridPos) (opn : List (GridPos × OpenData))
    (closed : List (GridPos × GridPos)) : Prop where
  ndO : (opn.map Prod.fst).Nodup
  ndC : (closed.map Prod.fst).Nodup
  disj : ∀ t, alookup closed t ≠ none → alookup opn t = none
  startIn : alookup opn start ≠ none ∨ alookup closed start ≠ none
  openE : ∀ t d, alookup opn t = some d →
    d.tower = occAt tiles start t ∧
    d.f = d.g + t.distance_to goal ∧
    ((t = start ∧ d.g = 0 ∧ d.parent = start) ∨
     (t ≠ start ∧ alookup closed d.parent ≠ none ∧ ValidStep b d.parent t ∧
       ∃ gp, IsMinCostTo b tiles start d.parent gp ∧
         d.g = gp + hopCost tiles start d.parent t))
  closedE : ∀ t p, alookup closed t = some p →
    ∃ rest, ParentChain closed start t rest ∧ IsRouteTo b start t rest ∧
      (∀ rest', IsRouteTo b start t rest' →
        routeCost tiles start start rest ≤ routeCost tiles start start rest') ∧
      rest.length ≤ closed.length
  fringeE : ∀ x, alookup closed x ≠ none → ∀ q, ValidStep b x q →
    alookup closed q = none →
    ∃ dq, alookup opn q = some dq ∧
      ∀ gx, IsMinCostTo b tiles start x gx →
        dq.g ≤ gx + hopCost tiles start x q

/-- Number of agents that went from holding no Route to holding one in one
pass, matching input and output positionally. -/
def grantCount {V A : Type} (inp : List (Agent V A))
    (out : List (Option (Agent V A))) : Nat :=
  (inp.zip out).countP (fun pr =>
    match pr.2 with
    | some a' => pr.1.path.isNone && a'.path.isSome
    | none => false)

/-! ## The grid-index synchronization invariant (Claim C7)

`fill_grid` and `clear_grid` are invoked by `place_tower` (after its
free-space check, on a freshly spawned entity) and by the tower-death path
(with the same `Tower` component the entity was placed with). The
reachable-state relation mirrors exactly those call sites; the ghost map
`sizes` records each placed entity's `Tower::size`, which the ECS keeps
unchanged on the entity between placement and removal. -/
inductive ReachableGrid : Grid → (Entity → Option (Int × Int)) → Prop
  | init : ReachableGrid ⟨[], []⟩ (fun _ => none)
  | place {g : Grid} {sizes : Entity → Option (Int × Int)}
      (t : Tower) (origin : GridPos) (entity : Entity) :
      ReachableGrid g sizes →
      (∀ pos ∈ footprint origin t.size, alookup g.towers pos = none) →
      alookup g.tower_origins entity = none →
      ReachableGrid (t.fill_grid origin g entity).1
        (fun e => if e = entity then some t.size else sizes e)
  | remove {g : Grid} {sizes : Entity → Option (Int × Int)}
      (t : Tower) (entity : Entity) :
      ReachableGrid g sizes →
      sizes entity = some t.size →
      ReachableGrid (t.clear_grid g entity).1 sizes

/-- The two maps of the grid index are in sync: keys are unique, every
occupant recorded in `towers` has an origin, and each recorded origin's
reconstructed footprint is exactly the tile set mapped to that entity. -/
def GridInv (g : Grid) (sizes : Entity → Option (Int × Int)) : Prop :=
  (g.towers.map Prod.fst).Nodup ∧
  (g.tower_origins.map Prod.fst).Nodup ∧
  (∀ pos e, alookup g.towers pos = some e → alookup g.tower_origins e ≠ none) ∧
  ∀ e o, alookup g.tower_origins e = some o →
    ∃ s, sizes e = some s ∧
      ∀ pos, alookup g.towers pos = some e ↔ pos ∈ footprint o s

/-! ## Engagement exclusivity (Claim C8) -/

/-- One update-cycle effect on the agent population, as the systems of
`path_finding.rs` produce it. `spawn` creates an agent with neither
component (the spawners of `enemy/mod.rs` attach only `Enemy`, sprite and
animation); `check`, `grant` and `move` are the three systems;
`resolveEngagement` is modelled from the spec: the external combat
collaborator ends an engagement by removing the `Attacking` marker,
returning the agent to the routeless state. Despawned agents (`none`
entries of a pass) leave the population. -/
inductive WorldStep {V A : Type} : List (Agent V A) → List (Agent V A) → Prop
  | spawn (w : List (Agent V A)) (cur goal : GridPos) (orient : Orientation)
      (vis : A) (p : V) :
      WorldStep w (w ++ [⟨cur, goal, orient, none, none, vis, p⟩])
  | check (w : List (Agent V A)) (events : List PathChangedEvent) :
      WorldStep w (checkForBrokenPaths events w)
  | grant (w : List (Agent V A)) (b : Bounds) (tiles : List (GridPos × Entity)) :
      WorldStep w ((enemyGetPath b tiles w).filterMap id)
  | advance (w : List (Agent V A)) (worldOf : GridPos → V) (glide : V → V → V)
      (reachedFn : V → V → V → Bool) (walkVisual attackVisual : Orientation → A)
      (tiles : List (GridPos × Entity)) :
      WorldStep w ((moveEnemies worldOf glide reachedFn walkVisual attackVisual
        tiles w).filterMap id)
  | resolveEngagement (pre : List (Agent V A)) (a : Agent V A)
      (post : List (Agent V A)) :
      WorldStep (pre ++ a :: post)
        (pre ++ (⟨a.current, a.goal, a.orientation, a.path, none, a.visual,
          a.pos⟩ : Agent V A) :: post)

/-- Agent populations reachable from the empty startup state. -/
inductive ReachableWorld {V A : Type} : List (Agent V A) → Prop
  | init : ReachableWorld []
  | step {w w' : List (Agent V A)} :
      ReachableWorld w → WorldStep w w' → ReachableWorld w'

/-- An agent holds at most one of Route and Engagement marker. -/
def Exclusive {V A : Type} (a : Agent V A) : Prop :=
  a.path = none ∨ a.attacking = none

/-! ## Association-list lemmas -/

section AListLemmas

variable {κ α : Type} [DecidableEq κ]

theorem alookup_nil (k : κ) : alookup ([] : List (κ × α)) k = none := rfl

theorem alookup_cons (k : κ) (v : α) (m : List (κ × α)) (k' : κ) :
    alookup ((k, v) :: m) k' = if k = k' then some v else alookup m k' := rfl

theorem aerase_cons (k : κ) (v : α) (m : List (κ × α)) (k' : κ) :
    aerase ((k, v) :: m) k' =
      if k = k' then aerase m k' else (k, v) :: aerase m k' := rfl

theorem alookup_aerase (m : List (κ × α)) (k k' : κ) :
    alookup (aerase m k) k' = if k' = k then none else alookup m k' := by
  induction m with
  | nil => by_cases h : k' = k <;> simp [aerase, alookup_nil, h]
  | cons e m ih =>
      obtain ⟨ek, ev⟩ := e
      simp only [aerase_cons, alookup_cons]
      by_cases h1 : ek = k
      · subst h1
        by_cases h2 : k' = ek
        · subst h2
          simp [ih]
        · have h3 : ¬ ek = k' := fun hh => h2 hh.symm
          simp [h2, h3, ih]
      · by_cases h3 : ek = k'
        · subst h3
          simp [h1, alookup_cons]
        · by_cases h2 : k' = k
          · subst h2
            simp [alookup_cons, h1, h3, ih]
          · simp [h1, h3, h2, ih, alookup_cons]

theorem alookup_ainsert (m : List (κ × α)) (k : κ) (v : α) (k' : κ) :
    alookup (ainsert m k v) k' = if k' = k then some v else alookup m k' := by
  by_cases h : k' = k <;> simp [ainsert, alookup, h, alookup_aerase, Ne.symm]

theorem alookup_ainsert_self (m : List (κ × α)) (k : κ) (v : α) :
    alookup (ainsert m k v) k = some v := by
  simp [alookup_ainsert]

theorem alookup_ainsert_ne (m : List (κ × α)) (k : κ) (v : α) (k' : κ)
    (h : k' ≠ k) : alookup (ainsert m k v) k' = alookup m k' := by
  simp [alookup_ainsert, h]

theorem alookup_isSome_of_mem {m : List (κ × α)} {e : κ × α} :
    e ∈ m → (alookup m e.1).isSome := by
  induction m with
  | nil => intro h; cases h
  | cons hd m ih =>
      intro h
      obtain ⟨hk, hv⟩ := hd
      rcases List.mem_cons.mp h with h | h
      · subst h
        simp [alookup]
      · by_cases he : hk = e.1 <;> simp [alookup, he, ih h]

theorem alookup_eq_some_of_mem {m : List (κ × α)} {e : κ × α}
    (hnd : (m.map Prod.fst).Nodup) : e ∈ m → alookup m e.1 = some e.2 := by
  induction m with
  | nil => intro h; cases h
  | cons hd m ih =>
      intro h
      obtain ⟨hk, hv⟩ := hd
      simp only [List.map_cons, List.nodup_cons] at hnd
      rcases List.mem_cons.mp h with h | h
      · subst h
        simp [alookup]
      · have hne : hk ≠ e.1 := by
          intro he
          exact hnd.1 (he ▸ List.mem_map_of_mem Prod.fst h)


        simp only [alookup, hne, if_false]
        exact ih hnd.2 h

theorem mem_of_alookup_eq_some {m : List (κ × α)} {k : κ} {v : α} :
    alookup m k = some v → (k, v) ∈ m := by
  induction m with
  | nil => intro h; simp [alookup_nil] at h
  | cons hd m ih =>
      intro h
      obtain ⟨hk, hv⟩ := hd
      by_cases he : hk = k
      · simp only [alookup, he, if_true, Option.some.injEq] at h
        subst he h
        exact List.mem_cons_self _ _
      · simp only [alookup, he, if_false] at h
        exact List.mem_cons_of_mem _ (ih h)

theorem mem_aerase_of_mem {m : List (κ × α)} {k : κ} {e : κ × α}
    (h : e ∈ m) (hne : e.1 ≠ k) : e ∈ aerase m k := by
  induction m with
  | nil => cases h
  | cons hd m ih =>
      rw [show aerase (hd :: m) k = if hd.1 = k then aerase m k else hd :: aerase m k from rfl]
      rcases List.mem_cons.mp h with h | h
      · subst h
        simp [hne]
      · by_cases hh : hd.1 = k <;> simp [hh, ih h, List.mem_cons_of_mem]

theorem mem_of_mem_aerase {m : List (κ × α)} {k : κ} {e : κ × α} :
    e ∈ aerase m k → e ∈ m := by
  induction m with
  | nil => intro h; cases h
  | cons hd m ih =>
      intro h
      rw [show aerase (hd :: m) k = if hd.1 = k then aerase m k else hd :: aerase m k from rfl] at h
      by_cases hh : hd.1 = k
      · simp only [hh, if_true] at h
        exact List.mem_cons_of_mem _ (ih h)
      · simp only [hh, if_false, List.mem_cons] at h
        rcases h with h | h
        · exact h ▸ List.mem_cons_self _ _
        · exact List.mem_cons_of_mem _ (ih h)

theorem not_mem_keys_aerase (m : List (κ × α)) (k : κ) :
    ∀ e ∈ aerase m k, e.1 ≠ k := by
  intro e he hk
  have := alookup_aerase m k e.1
  rw [if_pos hk] at this
  have h2 := alookup_isSome_of_mem he
  rw [this] at h2
  cases h2

theorem nodup_keys_aerase (m : List (κ × α)) (k : κ)
    (h : (m.map Prod.fst).Nodup) : ((aerase m k).map Prod.fst).Nodup := by
  induction m with
  | nil => simp [aerase]
  | cons hd m ih =>
      simp only [List.map_cons, List.nodup_cons] at h
      rw [show aerase (hd :: m) k = if hd.1 = k then aerase m k else hd :: aerase m k from rfl]
      by_cases hh : hd.1 = k
      · simp [hh, ih h.2]
      · simp only [hh, if_false, List.map_cons, List.nodup_cons]
        refine ⟨fun hmem => ?_, ih h.2⟩
        obtain ⟨e, he1, he2⟩ := List.mem_map.mp hmem
        exact h.1 (he2 ▸ List.mem_map_of_mem Prod.fst (mem_of_mem_aerase he1))

theorem nodup_keys_ainsert (m : List (κ × α)) (k : κ) (v : α)
    (h : (m.map Prod.fst).Nodup) : ((ainsert m k v).map Prod.fst).Nodup := by
  rw [ainsert]
  simp only [List.map_cons, List.nodup_cons]
  refine ⟨fun hmem => ?_, nodup_keys_aerase m k h⟩
  obtain ⟨e, he1, he2⟩ := List.mem_map.mp hmem
  exact not_mem_keys_aerase m k e he1 he2

theorem memB_iff (x : GridPos) (l : List GridPos) : memB x l = true ↔ x ∈ l := by
  simp [memB, List.any_eq_true]

end AListLemmas

/-! ## Neighbor-expansion lemmas -/

theorem mem_neighbors_iff (b : Bounds) (tiles : List (GridPos × Entity))
    (p q : GridPos) (occ : Option Entity) :
    (q, occ) ∈ neighbors b tiles p ↔
      q ∈ neighborTiles p ∧ inBounds b q = true ∧ occ = alookup tiles q := by
  simp only [neighbors, List.mem_map, List.mem_filter, Prod.mk.injEq]
  constructor
  · rintro ⟨x, ⟨hx, hb⟩, rfl, rfl⟩
    exact ⟨hx, hb, rfl⟩
  · rintro ⟨hx, hb, rfl⟩
    exact ⟨q, ⟨hx, hb⟩, rfl, rfl⟩

theorem expandNeighbor_lookup (goal : GridPos) (g : Nat) (tower : Option Entity)
    (tile : GridPos) (closed : List (GridPos × GridPos))
    (opn : List (GridPos × OpenData)) (nb : GridPos × Option Entity)
    (n : GridPos) (d' : OpenData)
    (h : alookup (expandNeighbor goal g tower tile closed opn nb) n = some d') :
    alookup opn n = some d' ∨ (n = nb.1 ∧ d' = relaxEntry goal g tower tile nb) := by
  unfold expandNeighbor at h
  by_cases hc : (alookup closed nb.1).isSome
  · rw [if_pos hc] at h
    exact Or.inl h
  · rw [if_neg hc] at h
    rcases ho : alookup opn nb.1 with _ | d <;> rw [ho] at h <;> dsimp only at h
    · by_cases hn : n = nb.1
      · rw [hn, alookup_ainsert_self] at h
        exact Or.inr ⟨hn, (Option.some.inj h).symm⟩
      · rw [alookup_ainsert_ne _ _ _ _ hn] at h
        exact Or.inl h
    · by_cases hlt : g + (if nb.2 = tower then 1 else 10) < d.g
      · rw [if_pos hlt] at h
        by_cases hn : n = nb.1
        · rw [hn, alookup_ainsert_self] at h
          exact Or.inr ⟨hn, (Option.some.inj h).symm⟩
        · rw [alookup_ainsert_ne _ _ _ _ hn] at h
          exact Or.inl h
      · rw [if_neg hlt] at h
        exact Or.inl h

theorem expandList_lookup (goal : GridPos) (g : Nat) (tower : Option Entity)
    (tile : GridPos) (closed : List (GridPos × GridPos)) :
    ∀ (nbs : List (GridPos × Option Entity)) (opn : List (GridPos × OpenData))
      (n : GridPos) (d' : OpenData),
      alookup (expandList goal g tower tile closed nbs opn) n = some d' →
      alookup opn n = some d' ∨
        ∃ nb ∈ nbs, n = nb.1 ∧ d' = relaxEntry goal g tower tile nb := by
  intro nbs
  induction nbs with
  | nil =>
      intro opn n d' h
      exact Or.inl h
  | cons nb nbs ih =>
      intro opn n d' h
      rcases ih _ n d' h with h2 | ⟨nb', hmem, he⟩
      · rcases expandNeighbor_lookup goal g tower tile closed opn nb n d' h2 with h3 | h3
        · exact Or.inl h3
        · exact Or.inr ⟨nb, List.mem_cons_self _ _, h3⟩
      · exact Or.inr ⟨nb', List.mem_cons_of_mem _ hmem, he⟩

/-- Claim C2 — during the search, for every expansion of a frontier tile and
each of its in-bounds 4-neighbors, the `g_cost` recorded for the step is
exactly 1 when the neighbor's occupant equals the occupant recorded for the
current tile, and exactly 10 otherwise; and `try_get_target` seeds the start
tile with `g_cost = 0` and occupant `none`. Every frontier entry the
expansion of a tile writes is for an in-bounds 4-neighbor and carries
`g_cost = g + 1` or `g + 10` by that occupant comparison. -/
theorem c2_step_cost_and_seed :
    (∀ (b : Bounds) (tiles : List (GridPos × Entity)) (goal : GridPos) (g : Nat)
        (tower : Option Entity) (tile : GridPos) (closed : List (GridPos × GridPos))
        (opn : List (GridPos × OpenData)) (n : GridPos) (d' : OpenData),
      alookup (expandList goal g tower tile closed (neighbors b tiles tile) opn) n
          = some d' →
      alookup opn n = some d' ∨
        (ValidStep b tile n ∧
          d'.g = g + (if alookup tiles n = tower then 1 else 10) ∧
          d'.tower = alookup tiles n ∧ d'.parent = tile ∧
          d'.f = d'.g + n.distance_to goal)) ∧
    ∀ (b : Bounds) (tiles : List (GridPos × Entity)) (e : Enemy),
      tryGetTarget b tiles e =
        astarLoop b tiles e.goal (searchFuel b)
          [(e.current, ⟨e.current.distance_to e.goal, 0, e.current, none⟩)] [] := by
  constructor
  · intro b tiles goal g tower tile closed opn n d' h
    rcases expandList_lookup goal g tower tile closed _ opn n d' h with h2 | ⟨nb, hmem, rfl, rfl⟩
    · exact Or.inl h2
    · obtain ⟨hmem1, hmem2, hocc⟩ := (mem_neighbors_iff b tiles tile nb.1 nb.2).mp hmem
      exact Or.inr ⟨⟨hmem1, hmem2⟩, by simp [relaxEntry, hocc]⟩
  · intro b tiles e
    rfl

/-- Claim C2 witness: a concrete expansion on a 2×1 grid writes the
neighbor entry with step cost 1 (both tiles unoccupied). -/
theorem c2_witness :
    alookup ([] : List (GridPos × OpenData)) ⟨1, 0⟩ =
        some ⟨1, 1, ⟨0, 0⟩, none⟩ ∨
      (ValidStep ⟨2, 1⟩ ⟨0, 0⟩ ⟨1, 0⟩ ∧
        (⟨1, 1, ⟨0, 0⟩, none⟩ : OpenData).g =
          0 + (if alookup ([] : List (GridPos × Entity)) ⟨1, 0⟩ = none then 1 else 10) ∧
        (⟨1, 1, ⟨0, 0⟩, none⟩ : OpenData).tower =
          alookup ([] : List (GridPos × Entity)) ⟨1, 0⟩ ∧
        (⟨1, 1, ⟨0, 0⟩, none⟩ : OpenData).parent = ⟨0, 0⟩ ∧
        (⟨1, 1, ⟨0, 0⟩, none⟩ : OpenData).f =
          (⟨1, 1, ⟨0, 0⟩, none⟩ : OpenData).g + GridPos.distance_to ⟨1, 0⟩ ⟨1, 0⟩) :=
  c2_step_cost_and_seed.1 ⟨2, 1⟩ [] ⟨1, 0⟩ 0 none ⟨0, 0⟩ [] [] ⟨1, 0⟩
    ⟨1, 1, ⟨0, 0⟩, none⟩ (by decide)

/-! ## Invalidation (`check_for_broken_paths`) -/

/-- Claim C3 counterexample — the claim as stated is false on the code at
two concrete inputs: (a) after draining a "now free" event, an agent that
held only an Engagement marker (and no Route) keeps the marker, because the
system's query only iterates entities holding an `EnemyPath`; (b) a "now
free" event whose tile list is empty triggers no invalidation at all, so a
route holder keeps its route. -/
theorem c3_counterexample :
    (checkForBrokenPaths [PathChangedEvent.mkNowFree [⟨2, 2⟩]]
        [({ current := ⟨0, 0⟩, goal := ⟨1, 1⟩, orientation := .Up, path := none,
            attacking := some 5, visual := (), pos := () } : Agent Unit Unit)] =
      [{ current := ⟨0, 0⟩, goal := ⟨1, 1⟩, orientation := .Up, path := none,
         attacking := some 5, visual := (), pos := () }] ∧
      (some 5 : Option Entity) ≠ none) ∧
    (checkForBrokenPaths [PathChangedEvent.mkNowFree []]
        [({ current := ⟨0, 0⟩, goal := ⟨1, 1⟩, orientation := .Up,
            path := some ⟨[⟨3, 3⟩], none⟩, attacking := none, visual := (),
            pos := () } : Agent Unit Unit)] =
      [{ current := ⟨0, 0⟩, goal := ⟨1, 1⟩, orientation := .Up,
         path := some ⟨[⟨3, 3⟩], none⟩, attacking := none, visual := (), pos := () }] ∧
      (some (⟨[⟨3, 3⟩], none⟩ : EnemyPath Unit) : Option (EnemyPath Unit)) ≠ none) := by
  constructor
  · exact ⟨by decide, by decide⟩
  · exact ⟨by decide, by decide⟩

/-- Claim C3 (amended) — after the invalidation pass of a cycle in which at
least one freed tile was drained (the drained now-free tile set is
nonempty), every agent that held a Route at the start of the pass holds
neither a Route nor an Engagement marker at the end; agents holding no
Route (including those holding only an Engagement marker) pass through
unchanged. -/
theorem c3_freed_drop {V A : Type} (events : List PathChangedEvent)
    (agents : List (Agent V A)) (h : drained events true ≠ []) :
    (checkForBrokenPaths events agents).length = agents.length ∧
    ∀ (i : Nat) (a a' : Agent V A), agents[i]? = some a →
      (checkForBrokenPaths events agents)[i]? = some a' →
      (a.path ≠ none → a'.path = none ∧ a'.attacking = none) ∧
      (a.path = none → a' = a) := by
  have hne : (drained events true).isEmpty = false := by
    cases hd : drained events true with
    | nil => exact absurd hd h
    | cons x xs => rfl
  rw [checkForBrokenPaths, hne]
  simp only [Bool.false_eq_true, if_false, List.length_map]
  refine ⟨trivial, fun i a a' ha ha' => ?_⟩
  rw [List.getElem?_map, ha] at ha'
  simp only [Option.map_some', Option.some.injEq] at ha'
  constructor
  · intro hp
    have hs : a.path.isSome := by
      cases hpa : a.path with
      | none => exact absurd hpa hp
      | some p => rfl
    rw [hs] at ha'
    simp only [if_true] at ha'
    rw [← ha']
    exact ⟨rfl, rfl⟩
  · intro hp
    rw [hp] at ha'
    simp only [Option.isSome_none, Bool.false_eq_true, if_false] at ha'
    exact ha'.symm

/-- Claim C3 witness: the amended theorem applied to one route-holding
agent and one freed tile. -/
theorem c3_witness :
    (checkForBrokenPaths [PathChangedEvent.mkNowFree [⟨0, 0⟩]]
      [({ current := ⟨0, 0⟩, goal := ⟨1, 1⟩, orientation := .Up,
          path := some ⟨[⟨3, 3⟩], none⟩, attacking := none, visual := (),
          pos := () } : Agent Unit Unit)]).length = 1 :=
  (c3_freed_drop [PathChangedEvent.mkNowFree [⟨0, 0⟩]] _ (by decide)).1

/-- Claim C4 — in a cycle with no "now free" events, a route holder whose
very next waypoint (the consumption-end, `steps.last()`) is blocked keeps
its Route even if further waypoints are blocked; otherwise the Route is
removed exactly when some remaining waypoint is blocked; agents whose
routes contain no blocked tile, and agents without a Route, are unchanged. -/
theorem c4_blocked_rules {V A : Type} (events : List PathChangedEvent)
    (agents : List (Agent V A)) (h : drained events true = []) :
    (checkForBrokenPaths events agents).length = agents.length ∧
    ∀ (i : Nat) (a a' : Agent V A), agents[i]? = some a →
      (checkForBrokenPaths events agents)[i]? = some a' →
      (a.path = none → a' = a) ∧
      ∀ p, a.path = some p →
        ((∃ t, p.steps.getLast? = some t ∧ t ∈ drained events false) → a' = a) ∧
        ((∀ t, p.steps.getLast? = some t → t ∉ drained events false) →
          ((∃ t ∈ p.steps, t ∈ drained events false) → a' = { a with path := none }) ∧
          ((∀ t ∈ p.steps, t ∉ drained events false) → a' = a)) := by
  have hne : (drained events true).isEmpty = true := by rw [h]; rfl
  rw [checkForBrokenPaths, hne]
  simp only [if_true, List.length_map]
  refine ⟨trivial, fun i a a' ha ha' => ?_⟩
  rw [List.getElem?_map, ha] at ha'
  simp only [Option.map_some', Option.some.injEq] at ha'
  constructor
  · intro hp
    rw [hp] at ha'
    exact ha'.symm
  · intro p hp
    rw [hp] at ha'
    dsimp only at ha'
    constructor
    · rintro ⟨t, hlast, hmem⟩
      rw [hlast] at ha'
      dsimp only at ha'
      rw [(memB_iff t _).mpr hmem] at ha'
      simp only [if_true] at ha'
      exact ha'.symm
    · intro hlastfree
      have hlast : (match p.steps.getLast? with
          | some tile => memB tile (drained events false)
          | none => false) = false := by
        cases hl : p.steps.getLast? with
        | none => rfl
        | some t =>
            dsimp only
            cases hm : memB t (drained events false) with
            | false => rfl
            | true => exact absurd ((memB_iff t _).mp hm) (hlastfree t hl)
      rw [hlast] at ha'
      simp only [Bool.false_eq_true, if_false] at ha'
      constructor
      · rintro ⟨t, hts, hmem⟩
        have hany : (p.steps.any fun tile => memB tile (drained events false)) = true := by
          rw [List.any_eq_true]
          exact ⟨t, hts, (memB_iff t _).mpr hmem⟩
        rw [hany] at ha'
        simp only [if_true] at ha'
        exact ha'.symm
      · intro hnone
        have hany : (p.steps.any fun tile => memB tile (drained events false)) = false := by
          rw [Bool.eq_false_iff]
          intro hc
          rw [List.any_eq_true] at hc
          obtain ⟨t, hts, hmem⟩ := hc
          exact hnone t hts ((memB_iff t _).mp hmem)
        rw [hany] at ha'
        simp only [Bool.false_eq_true, if_false] at ha'
        exact ha'.symm

/-- Claim C4 witness: a route whose next waypoint is the blocked tile is
kept unchanged. -/
theorem c4_witness :
    (checkForBrokenPaths [PathChangedEvent.mkNowBlocked [⟨3, 3⟩]]
      [({ current := ⟨0, 0⟩, goal := ⟨1, 1⟩, orientation := .Up,
          path := some ⟨[⟨4, 4⟩, ⟨3, 3⟩], none⟩, attacking := none, visual := (),
          pos := () } : Agent Unit Unit)]).length = 1 :=
  (c4_blocked_rules [PathChangedEvent.mkNowBlocked [⟨3, 3⟩]] _ (by decide)).1

/-! ## Route granting (`enemy_get_path`) -/

theorem grantCount_nil {V A : Type} (out : List (Option (Agent V A))) :
    grantCount [] out = 0 := by
  simp [grantCount]

theorem grantCount_cons_none {V A : Type} (a : Agent V A) (inp : List (Agent V A))
    (out : List (Option (Agent V A))) :
    grantCount (a :: inp) (none :: out) = grantCount inp out := by
  simp [grantCount, List.zip_cons_cons, List.countP_cons]

theorem grantCount_cons_some {V A : Type} (a : Agent V A) (inp : List (Agent V A))
    (a' : Agent V A) (out : List (Option (Agent V A))) :
    grantCount (a :: inp) (some a' :: out) =
      grantCount inp out + (if a.path.isNone && a'.path.isSome then 1 else 0) := by
  simp [grantCount, List.zip_cons_cons, List.countP_cons]

theorem grantCount_map_some {V A : Type} (xs : List (Agent V A)) :
    grantCount xs (xs.map some) = 0 := by
  induction xs with
  | nil => simp [grantCount]
  | cons x xs ih =>
      rw [List.map_cons, grantCount_cons_some, ih]
      cases hp : x.path <;> simp [hp]

/-- Claim C5 — in any single invocation of `enemy_get_path`, at most one
agent is granted a freshly computed Route, and any agent holding a Route or
an Engagement marker is not considered: it passes through unchanged. -/
theorem c5_throttle_and_eligibility {V A : Type} (b : Bounds)
    (tiles : List (GridPos × Entity)) (agents : List (Agent V A)) :
    grantCount agents (enemyGetPath b tiles agents) ≤ 1 ∧
    ∀ (i : Nat) (a : Agent V A) (oa' : Option (Agent V A)),
      agents[i]? = some a → (enemyGetPath b tiles agents)[i]? = some oa' →
      ¬(a.path = none ∧ a.attacking = none) → oa' = some a := by
  induction agents with
  | nil =>
      refine ⟨by simp [enemyGetPath, grantCount], fun i a oa' ha _ _ => ?_⟩
      simp at ha
  | cons a rest ih =>
      by_cases he : a.path.isNone && a.attacking.isNone
      · rw [show enemyGetPath b tiles (a :: rest) =
            (match tryGetTarget b tiles ⟨a.current, a.goal⟩ with
             | some closed =>
                 if (getPath closed ⟨a.current, a.goal⟩).isEmpty then
                   some a :: enemyGetPath b tiles rest
                 else
                   some { a with path := some ⟨getPath closed ⟨a.current, a.goal⟩, none⟩ }
                     :: rest.map some
             | none => none :: enemyGetPath b tiles rest) from by
          rw [enemyGetPath, if_pos he]]
        rcases ht : tryGetTarget b tiles ⟨a.current, a.goal⟩ with _ | closed <;> dsimp only
        · -- no path: agent despawned, loop continues
          refine ⟨?_, ?_⟩
          · rw [grantCount_cons_none]
            exact ih.1
          · intro i x oa' hx hoa' hne
            cases i with
            | zero =>
                simp only [List.getElem?_cons_zero, Option.some.injEq] at hx
                exact absurd ⟨by simp_all [Option.isNone_iff_eq_none],
                  by simp_all [Option.isNone_iff_eq_none]⟩ (hx ▸ hne)
            | succ n =>
                simp only [List.getElem?_cons_succ] at hx hoa'
                exact ih.2 n x oa' hx hoa' hne
        · by_cases hemp : (getPath closed ⟨a.current, a.goal⟩).isEmpty
          · -- empty reconstructed path: nothing granted, loop continues
            rw [if_pos hemp]
            refine ⟨?_, ?_⟩
            · rw [grantCount_cons_some]
              have hcond : (a.path.isNone && a.path.isSome) = false := by
                cases hp : a.path <;> simp [hp]
              simp only [hcond, Bool.false_eq_true, if_false]
              simpa using ih.1
            · intro i x oa' hx hoa' hne
              cases i with
              | zero =>
                  simp only [List.getElem?_cons_zero, Option.some.injEq] at hx hoa'
                  exact hoa'.symm ▸ (hx ▸ rfl)
              | succ n =>
                  simp only [List.getElem?_cons_succ] at hx hoa'
                  exact ih.2 n x oa' hx hoa' hne
          · -- grant: insert the route and return
            rw [if_neg hemp]
            refine ⟨?_, ?_⟩
            · rw [grantCount_cons_some, grantCount_map_some]
              split <;> omega
            · intro i x oa' hx hoa' hne
              cases i with
              | zero =>
                  simp only [List.getElem?_cons_zero, Option.some.injEq] at hx
                  exact absurd ⟨by simp_all [Option.isNone_iff_eq_none],
                    by simp_all [Option.isNone_iff_eq_none]⟩ (hx ▸ hne)
              | succ n =>
                  simp only [List.getElem?_cons_succ, List.getElem?_map] at hx hoa'
                  rw [hx] at hoa'
                  simp only [Option.map_some', Option.some.injEq] at hoa'
                  exact hoa'.symm
      · -- agent not seen by the query: passes through unchanged
        rw [show enemyGetPath b tiles (a :: rest) = some a :: enemyGetPath b tiles rest from by
          rw [enemyGetPath, if_neg he]]
        refine ⟨?_, ?_⟩
        · rw [grantCount_cons_some]
          have hcond : (a.path.isNone && a.path.isSome) = false := by
            cases hp : a.path <;> simp [hp]
          simp only [hcond, Bool.false_eq_true, if_false]
          simpa using ih.1
        · intro i x oa' hx hoa' hne
          cases i with
          | zero =>
              simp only [List.getElem?_cons_zero, Option.some.injEq] at hx hoa'
              exact hoa'.symm ▸ (hx ▸ rfl)
          | succ n =>
              simp only [List.getElem?_cons_succ] at hx hoa'
              exact ih.2 n x oa' hx hoa' hne

/-- Claim C5 witness: the pass over two routeless agents on an empty grid
grants at most one route. -/
theorem c5_witness :
    grantCount
      [({ current := ⟨0, 0⟩, goal := ⟨1, 1⟩, orientation := .Up, path := none,
          attacking := none, visual := (), pos := () } : Agent Unit Unit),
       { current := ⟨0, 0⟩, goal := ⟨1, 1⟩, orientation := .Up, path := none,
         attacking := none, visual := (), pos := () }]
      (enemyGetPath ⟨3, 3⟩ []
        [({ current := ⟨0, 0⟩, goal := ⟨1, 1⟩, orientation := .Up, path := none,
            attacking := none, visual := (), pos := () } : Agent Unit Unit),
         { current := ⟨0, 0⟩, goal := ⟨1, 1⟩, orientation := .Up, path := none,
           attacking := none, visual := (), pos := () }]) ≤ 1 :=
  (c5_throttle_and_eligibility ⟨3, 3⟩ [] _).1

theorem astarLoop_succ (b : Bounds) (tiles : List (GridPos × Entity))
    (goal : GridPos) (fuel : Nat) (opn : List (GridPos × OpenData))
    (closed : List (GridPos × GridPos)) :
    astarLoop b tiles goal (fuel + 1) opn closed =
      match selectMin opn with
      | none => none
      | some (tile, d) =>
          if tile = goal then some (ainsert closed tile d.parent)
          else
            astarLoop b tiles goal fuel
              (expandList goal d.g d.tower tile (ainsert closed tile d.parent)
                (neighbors b tiles tile) (aerase opn tile))
              (ainsert closed tile d.parent) := rfl

theorem tryGetTarget_self (b : Bounds) (tiles : List (GridPos × Entity))
    (c : GridPos) : tryGetTarget b tiles ⟨c, c⟩ = some [(c, c)] := by
  have h : tryGetTarget b tiles ⟨c, c⟩ =
      astarLoop b tiles c (b.rows.toNat * b.cols.toNat + 1 + 1)
        [(c, ⟨GridPos.distance_to c c, 0, c, none⟩)] [] := rfl
  rw [h, astarLoop_succ]
  have hs : selectMin [(c, (⟨GridPos.distance_to c c, 0, c, none⟩ : OpenData))] =
      some (c, ⟨GridPos.distance_to c c, 0, c, none⟩) := rfl
  rw [hs]
  dsimp only
  rw [if_pos rfl]
  rfl

/-- Claim C9 — an agent whose current tile equals its goal tile: the search
succeeds but reconstructs an empty path, so `enemy_get_path` gives it no
Route, does not despawn it, does not consume the single per-pass grant, and
simply moves on to the next routeless agent. -/
theorem c9_goal_agent {V A : Type} (b : Bounds) (tiles : List (GridPos × Entity))
    (a : Agent V A) (rest : List (Agent V A))
    (hpath : a.path = none) (hatt : a.attacking = none)
    (hcur : a.current = a.goal) :
    enemyGetPath b tiles (a :: rest) = some a :: enemyGetPath b tiles rest := by
  have he : (a.path.isNone && a.attacking.isNone) = true := by simp [hpath, hatt]
  rw [enemyGetPath, if_pos he]
  have ht : tryGetTarget b tiles ⟨a.current, a.goal⟩ = some [(a.current, a.current)] := by
    rw [← hcur]
    exact tryGetTarget_self b tiles a.current
  rw [ht]
  dsimp only
  have hgp : getPath [(a.current, a.current)] ⟨a.current, a.goal⟩ = [] := by
    rw [getPath]
    dsimp only
    rw [← hcur, getPathAux]
    rw [if_pos rfl]
  rw [hgp]
  rfl

/-- Claim C9 witness: a routeless agent standing on its goal is passed over
unchanged. -/
theorem c9_witness :
    enemyGetPath ⟨3, 3⟩ []
      [({ current := ⟨1, 1⟩, goal := ⟨1, 1⟩, orientation := .Up, path := none,
          attacking := none, visual := (), pos := () } : Agent Unit Unit)] =
      some ({ current := ⟨1, 1⟩, goal := ⟨1, 1⟩, orientation := .Up, path := none,
              attacking := none, visual := (), pos := () } : Agent Unit Unit) ::
        enemyGetPath ⟨3, 3⟩ [] [] :=
  c9_goal_agent ⟨3, 3⟩ [] _ [] rfl rfl rfl

/-! ## Movement (`move_enemies`) -/

theorem moveStep_halts {V A : Type} (worldOf : GridPos → V) (glide : V → V → V)
    (reachedFn : V → V → V → Bool) (walkVisual attackVisual : Orientation → A)
    (tiles : List (GridPos × Entity)) (a : Agent V A) (p : EnemyPath V)
    (hnext : p.next = none)
    (htrig : p.steps.getLast? = none ∨
      ∃ t tw, p.steps.getLast? = some t ∧ alookup tiles t = some tw) :
    ∃ o, moveStep worldOf glide reachedFn walkVisual attackVisual tiles a p =
      .halt o := by
  rw [moveStep, hnext]
  dsimp only
  rcases htrig with h | ⟨t, tw, h, htw⟩
  · rw [h]
    exact ⟨none, rfl⟩
  · -- engaging: the popped waypoint is occupied
    rw [h]
    dsimp only
    rw [htw]
    exact ⟨_, rfl⟩

/-- Claim C10 — in a single `move_enemies` pass, as soon as one agent
transitions to Engaging (its popped waypoint is occupied) or arrives (no
waypoint left), the system returns: every agent after it in iteration order
is left completely unchanged (position, interpolation target, facing and
route included), and no agent disappears from the list. -/
theorem c10_halt_stops_pass {V A : Type} (worldOf : GridPos → V) (glide : V → V → V)
    (reachedFn : V → V → V → Bool) (walkVisual attackVisual : Orientation → A)
    (tiles : List (GridPos × Entity)) (pre : List (Agent V A)) (a : Agent V A)
    (post : List (Agent V A)) (p : EnemyPath V)
    (hpre : ∀ x ∈ pre, x.path = none ∨ ∃ q a', x.path = some q ∧
        moveStep worldOf glide reachedFn walkVisual attackVisual tiles x q = .cont a')
    (hp : a.path = some p) (hnext : p.next = none)
    (htrig : p.steps.getLast? = none ∨
      ∃ t tw, p.steps.getLast? = some t ∧ alookup tiles t = some tw) :
    (moveEnemies worldOf glide reachedFn walkVisual attackVisual tiles
        (pre ++ a :: post)).drop (pre.length + 1) = post.map some ∧
    (moveEnemies worldOf glide reachedFn walkVisual attackVisual tiles
        (pre ++ a :: post)).length = pre.length + 1 + post.length := by
  induction pre with
  | nil =>
      obtain ⟨o, ho⟩ := moveStep_halts worldOf glide reachedFn walkVisual attackVisual
        tiles a p hnext htrig
      rw [List.nil_append, moveEnemies, hp]
      dsimp only
      rw [ho]
      refine ⟨by simp, ?_⟩
      simp only [List.length_cons, List.length_map, List.length_nil]
      omega
  | cons x pre ih =>
      have ihh := ih (fun y hy => hpre y (List.mem_cons_of_mem x hy))
      rcases hpre x (List.mem_cons_self x pre) with hx | ⟨q, a', hq, hcont⟩
      · rw [List.cons_append, moveEnemies, hx]
        dsimp only
        constructor
        · rw [List.length_cons, List.drop_succ_cons]
          exact ihh.1
        · rw [List.length_cons, List.length_cons, ihh.2]
          omega
      · rw [List.cons_append, moveEnemies, hq]
        dsimp only
        rw [hcont]
        dsimp only
        constructor
        · rw [List.length_cons, List.drop_succ_cons]
          exact ihh.1
        · rw [List.length_cons, List.length_cons, ihh.2]
          omega

/-- Claim C10 witness: an arriving agent at the head of the pass leaves the
agent after it untouched. -/
theorem c10_witness :
    (moveEnemies (fun _ => ()) (fun _ _ => ()) (fun _ _ _ => false)
        (fun _ => ()) (fun _ => ()) []
        ([] ++ ({ current := ⟨0, 0⟩, goal := ⟨1, 1⟩, orientation := .Up,
                  path := some ⟨[], none⟩, attacking := none, visual := (),
                  pos := () } : Agent Unit Unit) ::
          [{ current := ⟨2, 2⟩, goal := ⟨1, 1⟩, orientation := .Up,
             path := some ⟨[⟨3, 3⟩], none⟩, attacking := none, visual := (),
             pos := () }])).drop 1 =
      [some { current := ⟨2, 2⟩, goal := ⟨1, 1⟩, orientation := .Up,
              path := some ⟨[⟨3, 3⟩], none⟩, attacking := none, visual := (),
              pos := () }] :=
  (c10_halt_stops_pass (fun _ => ()) (fun _ _ => ()) (fun _ _ _ => false)
    (fun _ => ()) (fun _ => ()) [] [] _ _ ⟨[], none⟩ (by intro x hx; cases hx)
    rfl rfl (Or.inl rfl)).1

/-! ## Tower placement and the grid-index invariant -/

theorem alookup_foldl_ainsert (fp : List GridPos) (m : List (GridPos × Entity))
    (e : Entity) (q : GridPos) :
    alookup (fp.foldl (fun acc pos => ainsert acc pos e) m) q =
      if q ∈ fp then some e else alookup m q := by
  induction fp generalizing m with
  | nil => simp
  | cons p fp ih =>
      rw [List.foldl_cons, ih]
      by_cases h1 : q ∈ fp
      · simp [h1]
      · by_cases h2 : q = p
        · simp [h1, h2, alookup_ainsert_self]
        · simp [h1, h2, alookup_ainsert_ne _ _ _ _ h2]

theorem alookup_foldl_aerase (fp : List GridPos) (m : List (GridPos × Entity))
    (q : GridPos) :
    alookup (fp.foldl (fun acc pos => aerase acc pos) m) q =
      if q ∈ fp then none else alookup m q := by
  induction fp generalizing m with
  | nil => simp
  | cons p fp ih =>
      rw [List.foldl_cons, ih]
      by_cases h1 : q ∈ fp
      · simp [h1]
      · by_cases h2 : q = p
        · simp [h1, h2, alookup_aerase]
        · simp [h1, h2, alookup_aerase]

theorem nodup_foldl_ainsert (fp : List GridPos) (m : List (GridPos × Entity))
    (e : Entity) (h : (m.map Prod.fst).Nodup) :
    (((fp.foldl (fun acc pos => ainsert acc pos e) m)).map Prod.fst).Nodup := by
  induction fp generalizing m with
  | nil => exact h
  | cons p fp ih => exact ih _ (nodup_keys_ainsert m p e h)

theorem nodup_foldl_aerase (fp : List GridPos) (m : List (GridPos × Entity))
    (h : (m.map Prod.fst).Nodup) :
    (((fp.foldl (fun acc pos => aerase acc pos) m)).map Prod.fst).Nodup := by
  induction fp generalizing m with
  | nil => exact h
  | cons p fp ih => exact ih _ (nodup_keys_aerase m p h)

/-- Claim C6 counterexample — the claim as stated is false on the code: with
insufficient currency (0 < the wall's cost of 2) and a fully free, in-bounds
footprint, `place_tower` returns having inserted nothing, while the claim's
"otherwise" branch demands insertion. -/
theorem c6_counterexample :
    (∀ pos ∈ footprint ⟨1, 1⟩ (Tower.size ⟨.Wall, .Up⟩),
        alookup ([] : List (GridPos × Entity)) pos = none ∧
          inBounds ⟨5, 5⟩ pos = true) ∧
    placeTower ⟨5, 5⟩ ⟨.Wall, .Up⟩ ⟨1, 1⟩ 7 ⟨⟨[], []⟩, 0, 0, []⟩ =
      ⟨⟨[], []⟩, 0, 0, []⟩ ∧
    alookup (placeTower ⟨5, 5⟩ ⟨.Wall, .Up⟩ ⟨1, 1⟩ 7
        ⟨⟨[], []⟩, 0, 0, []⟩).grid.towers ⟨1, 1⟩ ≠ some 7 := by
  refine ⟨by decide, by decide, by decide⟩

/-- Claim C6 (amended) — tower placement is atomic: if any footprint tile is
occupied or out of bounds, `place_tower` returns with no state mutated (no
tile inserted, no origin recorded, no currency deducted, no event emitted);
the same holds when the builder's currency is below the tower's cost.
Otherwise every footprint tile is inserted mapped to the new obstacle, its
origin is recorded, the cost is deducted, and exactly one "now blocked"
event carrying exactly the inserted tiles is emitted. -/
theorem c6_place_atomic (b : Bounds) (tower : Tower) (grid_pos : GridPos)
    (entity : Entity) (st : PlaceState) :
    ((∃ pos ∈ footprint grid_pos tower.size,
        alookup st.grid.towers pos ≠ none ∨ inBounds b pos = false) →
      placeTower b tower grid_pos entity st = st) ∧
    (st.currency < tower.variant.cost →
      placeTower b tower grid_pos entity st = st) ∧
    (¬ st.currency < tower.variant.cost →
      (∀ pos ∈ footprint grid_pos tower.size,
        alookup st.grid.towers pos = none ∧ inBounds b pos = true) →
      (∀ q, alookup (placeTower b tower grid_pos entity st).grid.towers q =
          if q ∈ footprint grid_pos tower.size then some entity
          else alookup st.grid.towers q) ∧
      alookup (placeTower b tower grid_pos entity st).grid.tower_origins entity =
        some grid_pos ∧
      (placeTower b tower grid_pos entity st).events =
        st.events ++ [PathChangedEvent.mkNowBlocked (footprint grid_pos tower.size)] ∧
      (placeTower b tower grid_pos entity st).currency =
        st.currency - tower.variant.cost ∧
      (placeTower b tower grid_pos entity st).money_spend =
        st.money_spend + tower.variant.cost) := by
  refine ⟨?_, ?_, ?_⟩
  · rintro ⟨pos, hmem, hbad⟩
    by_cases hc : st.currency < tower.variant.cost
    · rw [placeTower, if_pos hc]
    · rw [placeTower, if_neg hc]
      have hall : ((footprint grid_pos tower.size).all
          (fun pos => isFree b st.grid.towers pos && inBounds b pos)) = false := by
        rw [Bool.eq_false_iff]
        intro hc2
        rw [List.all_eq_true] at hc2
        have := hc2 pos hmem
        rcases hbad with hocc | hoob
        · have : (alookup st.grid.towers pos).isNone = true := by
            cases hcl : alookup st.grid.towers pos with
            | none => rfl
            | some v =>
                rw [isFree, hcl] at this
                simp at this
          exact hocc (Option.isNone_iff_eq_none.mp this)
        · rw [hoob] at this
          simp at this
      rw [hall]
      simp
  · intro hc
    rw [placeTower, if_pos hc]
  · intro hc hfree
    have hall : ((footprint grid_pos tower.size).all
        (fun pos => isFree b st.grid.towers pos && inBounds b pos)) = true := by
      rw [List.all_eq_true]
      intro pos hmem
      obtain ⟨h1, h2⟩ := hfree pos hmem
      simp [isFree, h1, h2]
    rw [placeTower, if_neg hc, hall]
    dsimp only [Tower.fill_grid, if_true]
    refine ⟨fun q => ?_, ?_, rfl, rfl, rfl⟩
    · exact alookup_foldl_ainsert _ _ _ _
    · exact alookup_ainsert_self _ _ _

/-- Claim C6 witness: a wall placed on an empty 5×5 grid with enough
currency inserts exactly its one footprint tile. -/
theorem c6_witness :
    alookup (placeTower ⟨5, 5⟩ ⟨.Wall, .Up⟩ ⟨1, 1⟩ 7
        ⟨⟨[], []⟩, 10, 0, []⟩).grid.towers ⟨1, 1⟩ =
      if (⟨1, 1⟩ : GridPos) ∈ footprint ⟨1, 1⟩ (Tower.size ⟨.Wall, .Up⟩)
      then some 7 else alookup ([] : List (GridPos × Entity)) ⟨1, 1⟩ :=
  ((c6_place_atomic ⟨5, 5⟩ ⟨.Wall, .Up⟩ ⟨1, 1⟩ 7 ⟨⟨[], []⟩, 10, 0, []⟩).2.2
    (by decide) (by decide)).1 ⟨1, 1⟩

/-- Claim C7 — after any reachable sequence of guarded placements
(`fill_grid` as `place_tower` invokes it) and removals (`clear_grid` with
the placed tower), the grid index stays in sync; and removing an entity
with no recorded origin returns the empty tile list and leaves the grid
untouched. -/
theorem c7_grid_sync :
    (∀ (g : Grid) (sizes : Entity → Option (Int × Int)),
      ReachableGrid g sizes → GridInv g sizes) ∧
    ∀ (t : Tower) (g : Grid) (entity : Entity),
      alookup g.tower_origins entity = none →
      t.clear_grid g entity = (g, []) := by
  constructor
  · intro g sizes hreach
    induction hreach with
    | init =>
        refine ⟨List.nodup_nil, List.nodup_nil, ?_, ?_⟩
        · intro pos e h
          simp [alookup_nil] at h
        · intro e o h
          simp [alookup_nil] at h
    | @place g sizes t origin entity hre hfree hfresh ih =>
        obtain ⟨hnt, hno, hval, horig⟩ := ih
        dsimp only [Tower.fill_grid]
        refine ⟨nodup_foldl_ainsert _ _ _ hnt, nodup_keys_ainsert _ _ _ hno, ?_, ?_⟩
        · intro pos e h
          rw [alookup_foldl_ainsert] at h
          by_cases hmem : pos ∈ footprint origin t.size
          · rw [if_pos hmem] at h
            rw [alookup_ainsert, if_pos (Option.some.inj h).symm]
            simp
          · rw [if_neg hmem] at h
            have hv := hval pos e h
            by_cases he : e = entity
            · exact absurd hfresh (hval pos entity (he ▸ h))
            · rw [alookup_ainsert_ne _ _ _ _ he]
              exact hv
        · intro e o h
          rw [alookup_ainsert] at h
          by_cases he : e = entity
          · rw [if_pos he] at h
            refine ⟨t.size, by simp [he], fun pos => ?_⟩
            rw [alookup_foldl_ainsert, ← (Option.some.inj h)]
            by_cases hmem : pos ∈ footprint origin t.size
            · simp [hmem, he]
            · rw [if_neg hmem]
              simp only [hmem, iff_false]
              intro hc
              rw [he] at hc
              exact (hval pos entity hc) hfresh
          · rw [if_neg he] at h
            obtain ⟨s, hs, hiff⟩ := horig e o h
            refine ⟨s, by simp [he, hs], fun pos => ?_⟩
            rw [alookup_foldl_ainsert]
            by_cases hmem : pos ∈ footprint origin t.size
            · rw [if_pos hmem]
              constructor
              · intro hc
                exact absurd (Option.some.inj hc).symm he
              · intro hc
                have h1 := (hiff pos).mpr hc
                rw [hfree pos hmem] at h1
                simp at h1
            · rw [if_neg hmem]
              exact hiff pos
    | @remove g sizes t entity hre hsize ih =>
        obtain ⟨hnt, hno, hval, horig⟩ := ih
        rcases ho : alookup g.tower_origins entity with _ | o
        · -- unknown id: clear_grid leaves the grid unchanged
          rw [Tower.clear_grid, ho]
          exact ⟨hnt, hno, hval, horig⟩
        · obtain ⟨s, hs, hiff⟩ := horig entity o ho
          have hseq : s = t.size := by
            rw [hs] at hsize
            exact Option.some.inj hsize
          subst hseq
          rw [Tower.clear_grid, ho]
          dsimp only
          refine ⟨nodup_foldl_aerase _ _ hnt, nodup_keys_aerase _ _ hno, ?_, ?_⟩
          · intro pos e h
            rw [alookup_foldl_aerase] at h
            by_cases hmem : pos ∈ footprint o t.size
            · rw [if_pos hmem] at h
              simp at h
            · rw [if_neg hmem] at h
              have hv := hval pos e h
              have hne : e ≠ entity := by
                intro he
                subst he
                exact hmem ((hiff pos).mp h)
              rw [alookup_aerase, if_neg hne]
              exact hv
          · intro e o2 h
            rw [alookup_aerase] at h
            by_cases hne : e = entity
            · rw [if_pos hne] at h
              simp at h
            · rw [if_neg hne] at h
              obtain ⟨s2, hs2, hiff2⟩ := horig e o2 h
              refine ⟨s2, hs2, fun pos => ?_⟩
              rw [alookup_foldl_aerase]
              by_cases hmem : pos ∈ footprint o t.size
              · rw [if_pos hmem]
                constructor
                · intro hc
                  simp at hc
                · intro hc
                  have h1 := (hiff pos).mpr hmem
                  have h2 := (hiff2 pos).mpr hc
                  rw [h1] at h2
                  exact absurd (Option.some.inj h2).symm hne
              · rw [if_neg hmem]
                exact hiff2 pos
  · intro t g entity h
    rw [Tower.clear_grid, h]

/-- Claim C7 witness: the invariant holds for the concrete grid reached by
placing one wall. -/
theorem c7_witness :
    (((Tower.fill_grid ⟨.Wall, .Up⟩ ⟨2, 2⟩ ⟨[], []⟩ 3).1.towers.map Prod.fst)).Nodup :=
  (c7_grid_sync.1 _ _
    (ReachableGrid.place ⟨.Wall, .Up⟩ ⟨2, 2⟩ 3 ReachableGrid.init
      (by decide) (by decide))).1

theorem checkForBrokenPaths_exclusive {V A : Type} (events : List PathChangedEvent)
    (w : List (Agent V A)) (hw : ∀ a ∈ w, Exclusive a) :
    ∀ a' ∈ checkForBrokenPaths events w, Exclusive a' := by
  intro a' ha'
  rw [checkForBrokenPaths] at ha'
  by_cases hf : (drained events true).isEmpty
  · rw [if_pos hf] at ha'
    obtain ⟨a, ha, rfl⟩ := List.mem_map.mp ha'
    rcases hp : a.path with _ | p
    · exact hw a ha
    · dsimp only
      split
      · exact hw a ha
      · split
        · exact Or.inl rfl
        · exact hw a ha
  · rw [if_neg hf] at ha'
    obtain ⟨a, ha, rfl⟩ := List.mem_map.mp ha'
    split
    · exact Or.inl rfl
    · exact hw a ha

theorem enemyGetPath_exclusive {V A : Type} (b : Bounds)
    (tiles : List (GridPos × Entity)) (w : List (Agent V A))
    (hw : ∀ a ∈ w, Exclusive a) :
    ∀ a' ∈ (enemyGetPath b tiles w).filterMap id, Exclusive a' := by
  induction w with
  | nil =>
      intro a' ha'
      simp [enemyGetPath] at ha'
  | cons a rest ih =>
      intro a' ha'
      have hrest : ∀ x ∈ rest, Exclusive x :=
        fun x hx => hw x (List.mem_cons_of_mem a hx)
      by_cases he : a.path.isNone && a.attacking.isNone
      · rw [enemyGetPath, if_pos he] at ha'
        rcases ht : tryGetTarget b tiles ⟨a.current, a.goal⟩ with _ | closed <;>
          rw [ht] at ha' <;> dsimp only at ha'
        · rw [List.filterMap_cons] at ha'
          dsimp only [id] at ha'
          exact ih hrest a' ha'
        · by_cases hemp : (getPath closed ⟨a.current, a.goal⟩).isEmpty
          · rw [if_pos hemp, List.filterMap_cons] at ha'
            dsimp only [id] at ha'
            rcases List.mem_cons.mp ha' with rfl | hmem
            · exact hw _ (List.mem_cons_self _ _)
            · exact ih hrest a' hmem
          · rw [if_neg hemp, List.filterMap_cons] at ha'
            dsimp only [id] at ha'
            rcases List.mem_cons.mp ha' with rfl | hmem
            · have := hw a (List.mem_cons_self a rest)
              exact Or.inr (by
                have : a.attacking.isNone := by
                  rcases Bool.and_eq_true .. ▸ he with ⟨_, h2⟩
                  exact h2
                simpa [Option.isNone_iff_eq_none] using this)
            · obtain ⟨oa, hoa, hid⟩ := List.mem_filterMap.mp hmem
              obtain ⟨x, hx, rfl⟩ := List.mem_map.mp hoa
              cases hid
              exact hrest _ hx
      · rw [enemyGetPath, if_neg he, List.filterMap_cons] at ha'
        dsimp only [id] at ha'
        rcases List.mem_cons.mp ha' with rfl | hmem
        · exact hw _ (List.mem_cons_self _ _)
        · exact ih hrest a' hmem

theorem moveEnemies_exclusive {V A : Type} (worldOf : GridPos → V)
    (glide : V → V → V) (reachedFn : V → V → V → Bool)
    (walkVisual attackVisual : Orientation → A)
    (tiles : List (GridPos × Entity)) (w : List (Agent V A))
    (hw : ∀ a ∈ w, Exclusive a) :
    ∀ a' ∈ (moveEnemies worldOf glide reachedFn walkVisual attackVisual
      tiles w).filterMap id, Exclusive a' := by
  induction w with
  | nil =>
      intro a' ha'
      simp [moveEnemies] at ha'
  | cons a rest ih =>
      intro a' ha'
      have hrest : ∀ x ∈ rest, Exclusive x :=
        fun x hx => hw x (List.mem_cons_of_mem a hx)
      rcases hp : a.path with _ | p
      · rw [moveEnemies, hp] at ha'
        dsimp only at ha'
        rw [List.filterMap_cons] at ha'
        dsimp only [id] at ha'
        rcases List.mem_cons.mp ha' with rfl | hmem
        · exact hw _ (List.mem_cons_self _ _)
        · exact ih hrest a' hmem
      · rw [moveEnemies, hp] at ha'
        dsimp only at ha'
        have hatt : a.attacking = none := by
          rcases hw a (List.mem_cons_self a rest) with h | h
          · rw [hp] at h
            cases h
          · exact h
        rcases hms : moveStep worldOf glide reachedFn walkVisual attackVisual
            tiles a p with a2 | o <;> rw [hms] at ha'
        · rw [List.filterMap_cons] at ha'
          dsimp only [id] at ha'
          rcases List.mem_cons.mp ha' with rfl | hmem
          · -- a continues: its Attacking component is untouched
            rw [moveStep] at hms
            rcases hn : p.next with _ | nextv <;> rw [hn] at hms <;> dsimp only at hms
            · rcases hl : p.steps.getLast? with _ | tile <;> rw [hl] at hms <;>
                dsimp only at hms
              · cases hms
              · rcases hlk : alookup tiles tile with _ | tw <;> rw [hlk] at hms <;>
                  dsimp only at hms
                · cases hms
                  exact Or.inr (by simp [glideUpdate, hatt])
                · cases hms
            · cases hms
              exact Or.inr (by simp [glideUpdate, hatt])
          · exact ih hrest a' hmem
        · rw [List.filterMap_cons] at ha'
          rcases o with _ | a2
          · dsimp only [id] at ha'
            obtain ⟨oa, hoa, hid⟩ := List.mem_filterMap.mp ha'
            obtain ⟨x, hx, rfl⟩ := List.mem_map.mp hoa
            cases hid
            exact hrest _ hx
          · dsimp only [id] at ha'
            rcases List.mem_cons.mp ha' with rfl | hmem
            · -- the engaging agent had its path removed in the same step
              rw [moveStep] at hms
              rcases hn : p.next with _ | nextv <;> rw [hn] at hms <;> dsimp only at hms
              · rcases hl : p.steps.getLast? with _ | tile <;> rw [hl] at hms <;>
                  dsimp only at hms
                · cases hms
                · rcases hlk : alookup tiles tile with _ | tw <;> rw [hlk] at hms <;>
                    dsimp only at hms
                  · cases hms
                  · cases hms
                    exact Or.inl rfl
              · cases hms
            · obtain ⟨oa, hoa, hid⟩ := List.mem_filterMap.mp hmem
              obtain ⟨x, hx, rfl⟩ := List.mem_map.mp hoa
              cases hid
              exact hrest _ hx

/-- Claim C8 — in every reachable agent population, no agent simultaneously
holds a Route (`EnemyPath`) and an Engagement marker (`Attacking`): route
grants go only to agents with neither component, the movement pass removes
the route in the very step that attaches the marker, and the invalidation
and resolution passes only remove components. -/
theorem c8_engagement_exclusive {V A : Type} (w : List (Agent V A))
    (h : ReachableWorld w) : ∀ a ∈ w, a.path = none ∨ a.attacking = none := by
  induction h with
  | init => intro a ha; cases ha
  | @step w w' hre hstep ih =>
      cases hstep with
      | spawn w cur goal orient vis p =>
          intro a ha
          rcases List.mem_append.mp ha with hm | hm
          · exact ih a hm
          · rcases List.mem_singleton.mp hm with rfl
            exact Or.inl rfl
      | check w events => exact checkForBrokenPaths_exclusive events w ih
      | grant w b tiles => exact enemyGetPath_exclusive b tiles w ih
      | advance w worldOf glide reachedFn walkVisual attackVisual tiles =>
          exact moveEnemies_exclusive worldOf glide reachedFn walkVisual
            attackVisual tiles w ih
      | resolveEngagement pre a post =>
          intro x hx
          rcases List.mem_append.mp hx with hm | hm
          · exact ih x (List.mem_append.mpr (Or.inl hm))
          · rcases List.mem_cons.mp hm with rfl | hm
            · exact Or.inr rfl
            · exact ih x (List.mem_append.mpr (Or.inr (List.mem_cons_of_mem a hm)))

/-- Claim C8 witness: a freshly spawned agent in a reachable world holds
neither component. -/
theorem c8_witness :
    ({ current := ⟨0, 0⟩, goal := ⟨1, 1⟩, orientation := .Up, path := none,
       attacking := none, visual := (), pos := () } : Agent Unit Unit).path = none ∨
    ({ current := ⟨0, 0⟩, goal := ⟨1, 1⟩, orientation := .Up, path := none,
       attacking := none, visual := (), pos := () } : Agent Unit Unit).attacking = none :=
  c8_engagement_exclusive _
    (ReachableWorld.step ReachableWorld.init
      (WorldStep.spawn [] ⟨0, 0⟩ ⟨1, 1⟩ .Up () ())) _
    (by simp)

/-! ## Route-cost and chain lemmas for the A* proof -/

theorem routeCost_nil (tiles : List (GridPos × Entity)) (start p : GridPos) :
    routeCost tiles start p [] = 0 := rfl

theorem routeCost_cons (tiles : List (GridPos × Entity)) (start p q : GridPos)
    (rest : List GridPos) :
    routeCost tiles start p (q :: rest) =
      hopCost tiles start p q + routeCost tiles start q rest := rfl

theorem hopCost_pos (tiles : List (GridPos × Entity)) (start p q : GridPos) :
    1 ≤ hopCost tiles start p q := by
  unfold hopCost
  split <;> omega

theorem dist_le_of_validStep {b : Bounds} {p q : GridPos} (γ : GridPos)
    (h : ValidStep b p q) : p.distance_to γ ≤ 1 + q.distance_to γ := by
  obtain ⟨hmem, _⟩ := h
  simp only [neighborTiles, List.mem_cons, List.not_mem_nil, or_false] at hmem
  rcases hmem with rfl | rfl | rfl | rfl <;>
    · unfold GridPos.distance_to
      dsimp only
      omega

theorem chain_dist_le {b : Bounds} (tiles : List (GridPos × Entity))
    (start γ : GridPos) :
    ∀ (rest : List GridPos) (p t : GridPos), List.Chain (ValidStep b) p rest →
      (p :: rest).getLast (List.cons_ne_nil _ _) = t →
      p.distance_to γ ≤ routeCost tiles start p rest + t.distance_to γ := by
  intro rest
  induction rest with
  | nil =>
      intro p t _ hlast
      rw [show p = t from hlast, routeCost_nil]
      omega
  | cons q rest ih =>
      intro p t hch hlast
      obtain ⟨hpq, hch'⟩ := List.chain_cons.mp hch
      have hlast' : (q :: rest).getLast (List.cons_ne_nil _ _) = t := by
        rw [← hlast]
        exact (List.getLast_cons (List.cons_ne_nil _ _)).symm
      have h1 := dist_le_of_validStep γ hpq
      have h2 := ih q t hch' hlast'
      have h3 := hopCost_pos tiles start p q
      rw [routeCost_cons]
      omega

theorem chain_append_single {b : Bounds} :
    ∀ (rest : List GridPos) (p q : GridPos), List.Chain (ValidStep b) p rest →
      ValidStep b ((p :: rest).getLast (List.cons_ne_nil _ _)) q →
      List.Chain (ValidStep b) p (rest ++ [q]) := by
  intro rest
  induction rest with
  | nil =>
      intro p q _ hstep
      exact List.chain_cons.mpr ⟨hstep, List.Chain.nil⟩
  | cons r rest ih =>
      intro p q hch hstep
      obtain ⟨hpr, hch'⟩ := List.chain_cons.mp hch
      refine List.chain_cons.mpr ⟨hpr, ih r q hch' ?_⟩
      rw [show ((r :: rest).getLast (List.cons_ne_nil _ _)) =
        ((p :: r :: rest).getLast (List.cons_ne_nil _ _)) from
        (List.getLast_cons (List.cons_ne_nil _ _)).symm]
      exact hstep

theorem routeCost_append_single (tiles : List (GridPos × Entity)) (start : GridPos) :
    ∀ (rest : List GridPos) (p q : GridPos),
      routeCost tiles start p (rest ++ [q]) =
        routeCost tiles start p rest +
          hopCost tiles start ((p :: rest).getLast (List.cons_ne_nil _ _)) q := by
  intro rest
  induction rest with
  | nil =>
      intro p q
      rw [List.nil_append, routeCost_cons, routeCost_nil, routeCost_nil]
      show hopCost tiles start p q + 0 = 0 + hopCost tiles start p q
      omega
  | cons r rest ih =>
      intro p q
      rw [List.cons_append, routeCost_cons, ih, routeCost_cons]
      rw [show ((p :: r :: rest).getLast (List.cons_ne_nil _ _)) =
        ((r :: rest).getLast (List.cons_ne_nil _ _)) from
        List.getLast_cons (List.cons_ne_nil _ _)]
      omega

theorem getLast_cons_append_single (start : GridPos) (rest : List GridPos)
    (q : GridPos) :
    (start :: (rest ++ [q])).getLast (List.cons_ne_nil _ _) = q := by
  induction rest generalizing start with
  | nil => rfl
  | cons r rest ih =>
      exact (List.getLast_cons (List.cons_ne_nil _ _)).trans (ih r)

theorem isRouteTo_append {b : Bounds} (tiles : List (GridPos × Entity))
    {start p q : GridPos} {rest : List GridPos}
    (h : IsRouteTo b start p rest) (hs : ValidStep b p q) :
    IsRouteTo b start q (rest ++ [q]) ∧
      routeCost tiles start start (rest ++ [q]) =
        routeCost tiles start start rest + hopCost tiles start p q := by
  obtain ⟨hch, hlast⟩ := h
  refine ⟨⟨chain_append_single rest start q hch (by rw [hlast]; exact hs),
    getLast_cons_append_single start rest q⟩, ?_⟩
  rw [routeCost_append_single, hlast]

theorem isMinCostTo_self (b : Bounds) (tiles : List (GridPos × Entity))
    (start : GridPos) : IsMinCostTo b tiles start start 0 :=
  ⟨⟨[], ⟨List.Chain.nil, rfl⟩, rfl⟩, fun _ _ => Nat.zero_le _⟩

theorem isMinCostTo_unique {b : Bounds} {tiles : List (GridPos × Entity)}
    {start goal : GridPos} {c c' : Nat}
    (h : IsMinCostTo b tiles start goal c) (h' : IsMinCostTo b tiles start goal c') :
    c = c' := by
  obtain ⟨⟨r1, hr1, hc1⟩, hmin⟩ := h
  obtain ⟨⟨r2, hr2, hc2⟩, hmin'⟩ := h'
  exact Nat.le_antisymm (hc2 ▸ hmin r2 hr2) (hc1 ▸ hmin' r1 hr1)

/-! ## Frontier-minimum lemmas -/

theorem selMinStep_some {acc : Option (GridPos × OpenData)} {e b' : GridPos × OpenData}
    (h : selMinStep acc e = some b') :
    (b' = e ∨ acc = some b') ∧ b'.2.f ≤ e.2.f ∧
      ∀ x, acc = some x → b'.2.f ≤ x.2.f := by
  cases acc with
  | none =>
      cases h
      exact ⟨Or.inl rfl, Nat.le_refl _, fun x hx => by cases hx⟩
  | some b0 =>
      rw [show selMinStep (some b0) e =
        if e.2.f ≤ b0.2.f then some e else some b0 from rfl] at h
      by_cases hle : e.2.f ≤ b0.2.f
      · rw [if_pos hle] at h
        cases h
        exact ⟨Or.inl rfl, Nat.le_refl _,
          fun x hx => (Option.some.inj hx) ▸ hle⟩
      · rw [if_neg hle] at h
        cases h
        exact ⟨Or.inr rfl, Nat.le_of_not_le hle,
          fun x hx => (Option.some.inj hx) ▸ Nat.le_refl _⟩

theorem selectMin_foldl_some :
    ∀ (l : List (GridPos × OpenData)) (acc : Option (GridPos × OpenData))
      (r : GridPos × OpenData), l.foldl selMinStep acc = some r →
      (acc = some r ∨ r ∈ l) ∧ (∀ x, acc = some x → r.2.f ≤ x.2.f) ∧
        ∀ x ∈ l, r.2.f ≤ x.2.f := by
  intro l
  induction l with
  | nil =>
      intro acc r h
      rw [List.foldl_nil] at h
      refine ⟨Or.inl h, fun x hx => ?_, fun x hx => absurd hx (List.not_mem_nil x)⟩
      rw [h] at hx
      exact (Option.some.inj hx) ▸ Nat.le_refl _
  | cons e l ih =>
      intro acc r h
      rw [List.foldl_cons] at h
      obtain ⟨hmem, hacc, hl⟩ := ih (selMinStep acc e) r h
      cases hs : selMinStep acc e with
      | none =>
          exfalso
          rcases acc with _ | b0
          · cases hs
          · rw [show selMinStep (some b0) e =
              if e.2.f ≤ b0.2.f then some e else some b0 from rfl] at hs
            split at hs <;> cases hs
      | some b' =>
          obtain ⟨hb1, hb2, hb3⟩ := selMinStep_some hs
          have hrb : r.2.f ≤ b'.2.f := hacc b' hs
          refine ⟨?_, ?_, ?_⟩
          · rcases hmem with hm | hm
            · rw [hs] at hm
              have hbr : b' = r := Option.some.inj hm
              rcases hb1 with hb | hb
              · exact Or.inr (by rw [← hbr, hb]; exact List.mem_cons_self _ _)
              · exact Or.inl (by rw [hb, hbr])
            · exact Or.inr (List.mem_cons_of_mem _ hm)
          · intro x hx
            exact Nat.le_trans hrb (hb3 x hx)
          · intro x hx
            rcases List.mem_cons.mp hx with rfl | hx
            · exact Nat.le_trans hrb hb2
            · exact hl x hx

theorem selectMin_eq_some {l : List (GridPos × OpenData)} {r : GridPos × OpenData}
    (h : selectMin l = some r) : r ∈ l ∧ ∀ x ∈ l, r.2.f ≤ x.2.f := by
  obtain ⟨hmem, _, hl⟩ := selectMin_foldl_some l none r h
  rcases hmem with h0 | hm
  · cases h0
  · exact ⟨hm, hl⟩

theorem selectMin_foldl_ne_none :
    ∀ (l : List (GridPos × OpenData)) (e : GridPos × OpenData),
      l.foldl selMinStep (some e) ≠ none := by
  intro l
  induction l with
  | nil => intro e h; cases h
  | cons x l ih =>
      intro e
      rw [List.foldl_cons]
      cases hs : selMinStep (some e) x with
      | none =>
          exfalso
          rw [show selMinStep (some e) x =
            if x.2.f ≤ e.2.f then some x else some e from rfl] at hs
          split at hs <;> cases hs
      | some b' => exact hs ▸ ih b'

theorem selectMin_ne_none {l : List (GridPos × OpenData)}
    {e : GridPos × OpenData} (he : e ∈ l) : selectMin l ≠ none := by
  cases l with
  | nil => cases he
  | cons x l =>
      rw [selectMin, List.foldl_cons]
      exact selectMin_foldl_ne_none l x

/-! ## More association-list facts -/

theorem aerase_eq_self_of_lookup_none {κ α : Type} [DecidableEq κ]
    {m : List (κ × α)} {k : κ} : alookup m k = none → aerase m k = m := by
  induction m with
  | nil => intro _; rfl
  | cons e m ih =>
      intro h
      by_cases he : e.1 = k
      · rw [show alookup (e :: m) k = if e.1 = k then some e.2 else alookup m k from rfl,
          if_pos he] at h
        cases h
      · rw [show alookup (e :: m) k = if e.1 = k then some e.2 else alookup m k from rfl,
          if_neg he] at h
        rw [show aerase (e :: m) k = if e.1 = k then aerase m k else e :: aerase m k from rfl,
          if_neg he, ih h]

theorem ainsert_length_of_lookup_none {κ α : Type} [DecidableEq κ]
    {m : List (κ × α)} {k : κ} (v : α) (h : alookup m k = none) :
    (ainsert m k v).length = m.length + 1 := by
  rw [ainsert, aerase_eq_self_of_lookup_none h]
  rfl

theorem alookup_ainsert_ne_none {κ α : Type} [DecidableEq κ]
    {m : List (κ × α)} {k x : κ} (v : α) (h : alookup m x ≠ none) :
    alookup (ainsert m k v) x ≠ none := by
  by_cases hx : x = k <;> simp [alookup_ainsert, hx, h]

/-! ## Parent-chain lemmas -/

theorem parentChain_ainsert {closed : List (GridPos × GridPos)}
    {start t0 : GridPos} (v : GridPos) (hfresh : alookup closed t0 = none) :
    ∀ {u : GridPos} {rest : List GridPos}, ParentChain closed start u rest →
      ParentChain (ainsert closed t0 v) start u rest := by
  intro u rest h
  induction h with
  | nil => exact ParentChain.nil
  | @cons u2 p2 rest2 hne hlk hch ih =>
      refine ParentChain.cons hne ?_ ih
      have hu : u2 ≠ t0 := by
        intro he
        rw [he, hfresh] at hlk
        cases hlk
      rw [alookup_ainsert_ne _ _ _ _ hu]
      exact hlk

theorem getPathAux_parentChain {closed : List (GridPos × GridPos)}
    {start u : GridPos} {rest : List GridPos}
    (h : ParentChain closed start u rest) :
    ∀ (fuel : Nat), rest.length + 1 ≤ fuel → ∀ acc,
      getPathAux closed start fuel u acc = acc ++ rest.reverse := by
  induction h with
  | nil =>
      intro fuel hfuel acc
      cases fuel with
      | zero => omega
      | succ f =>
          rw [getPathAux, if_pos rfl]
          simp
  | @cons u p rest hne hlk hch ih =>
      intro fuel hfuel acc
      cases fuel with
      | zero => simp at hfuel
      | succ f =>
          rw [getPathAux, if_neg hne, hlk]
          dsimp only
          have hlen : rest.length + 1 ≤ f := by
            simp only [List.length_append, List.length_cons] at hfuel
            omega
          rw [ih f hlen (acc ++ [u])]
          simp

/-! ## Pop-optimality: the frontier entry of minimal `f_cost` carries the
minimal achievable `g_cost` -/

theorem ainv_open_attained {b : Bounds} {tiles : List (GridPos × Entity)}
    {start goal : GridPos} {opn : List (GridPos × OpenData)}
    {closed : List (GridPos × GridPos)}
    (inv : AInv b tiles start goal opn closed) {t : GridPos} {d : OpenData}
    (h : alookup opn t = some d) :
    ∃ rest, IsRouteTo b start t rest ∧ routeCost tiles start start rest = d.g := by
  obtain ⟨_, _, h3⟩ := inv.openE t d h
  rcases h3 with ⟨heq, hg, _⟩ | ⟨hne, hpc, hvs, gp, hgp, hdg⟩
  · exact ⟨[], ⟨List.Chain.nil, heq.symm⟩, by rw [hg]; rfl⟩
  · obtain ⟨⟨restp, hroutep, hcostp⟩, hminp⟩ := hgp
    obtain ⟨hroute, hcost⟩ := isRouteTo_append tiles hroutep hvs
    exact ⟨restp ++ [t], hroute, by rw [hcost, hcostp, hdg]⟩

theorem ainv_closed_min {b : Bounds} {tiles : List (GridPos × Entity)}
    {start goal : GridPos} {opn : List (GridPos × OpenData)}
    {closed : List (GridPos × GridPos)}
    (inv : AInv b tiles start goal opn closed) {x : GridPos} {p : GridPos}
    (h : alookup closed x = some p) :
    ∃ gx, IsMinCostTo b tiles start x gx := by
  obtain ⟨rest, _, hroute, hmin, _⟩ := inv.closedE x p h
  exact ⟨routeCost tiles start start rest, ⟨⟨rest, hroute, rfl⟩, hmin⟩⟩

theorem popt_aux {b : Bounds} {tiles : List (GridPos × Entity)}
    {start goal : GridPos} {opn : List (GridPos × OpenData)}
    {closed : List (GridPos × GridPos)}
    (inv : AInv b tiles start goal opn closed) {t : GridPos} {d : OpenData}
    (hsel : selectMin opn = some (t, d)) :
    ∀ (rest : List GridPos) (p : GridPos), List.Chain (ValidStep b) p rest →
      (p :: rest).getLast (List.cons_ne_nil _ _) = t →
      (∀ gp, alookup closed p ≠ none → IsMinCostTo b tiles start p gp →
        d.g ≤ gp + routeCost tiles start p rest) ∧
      (p = start → d.g ≤ routeCost tiles start start rest) := by
  have hmemmin := selectMin_eq_some hsel
  have htd : alookup opn t = some d := alookup_eq_some_of_mem inv.ndO hmemmin.1
  have hmin := hmemmin.2
  have hclosedt : alookup closed t = none := by
    by_cases hc : alookup closed t = none
    · exact hc
    · have := inv.disj t hc
      rw [this] at htd
      cases htd
  intro rest
  induction rest with
  | nil =>
      intro p _ hlast
      have hpt : p = t := hlast
      constructor
      · intro gp hp _
        rw [hpt] at hp
        exact absurd hclosedt hp
      · intro hps
        have hts : t = start := by rw [← hpt, hps]
        obtain ⟨_, _, h3⟩ := inv.openE t d htd
        rcases h3 with ⟨_, hg0, _⟩ | ⟨hne, _⟩
        · rw [hg0, routeCost_nil]
        · exact absurd hts hne
  | cons q rest ih =>
      intro p hch hlast
      obtain ⟨hpq, hch'⟩ := List.chain_cons.mp hch
      have hlast' : (q :: rest).getLast (List.cons_ne_nil _ _) = t := by
        rw [← hlast]
        exact (List.getLast_cons (List.cons_ne_nil _ _)).symm
      have IHq := ih q hch' hlast'
      have hfirst : ∀ gp, alookup closed p ≠ none → IsMinCostTo b tiles start p gp →
          d.g ≤ gp + routeCost tiles start p (q :: rest) := by
        intro gp hp hgp
        by_cases hq : alookup closed q = none
        · -- the edge p → q leaves the closed region: fringe crossing
          obtain ⟨dq, hdq, hbound⟩ := inv.fringeE p hp q hpq hq
          have hdqb := hbound gp hgp
          have hfle : d.f ≤ dq.f := hmin (q, dq) (mem_of_alookup_eq_some hdq)
          obtain ⟨_, hdf, _⟩ := inv.openE t d htd
          obtain ⟨_, hdqf, _⟩ := inv.openE q dq hdq
          have hcons := chain_dist_le tiles start goal rest q t hch' hlast'
          rw [hdf, hdqf] at hfle
          rw [routeCost_cons]
          omega
        · -- q already closed: walk one edge further
          obtain ⟨pq, hpqc⟩ : ∃ pq, alookup closed q = some pq := by
            cases hcq : alookup closed q with
            | none => exact absurd hcq hq
            | some pq => exact ⟨pq, rfl⟩
          obtain ⟨gq, hgq⟩ := ainv_closed_min inv hpqc
          have hIH := IHq.1 gq hq hgq
          obtain ⟨⟨restp, hroutep, hcostp⟩, _⟩ := hgp
          obtain ⟨hrq, hcq⟩ := isRouteTo_append tiles hroutep hpq
          have hgqle : gq ≤ gp + hopCost tiles start p q := by
            have := hgq.2 (restp ++ [q]) hrq
            rw [hcq, hcostp] at this
            exact this
          rw [routeCost_cons]
          omega
      refine ⟨hfirst, ?_⟩
      intro hps
      subst hps
      by_cases hs : alookup closed p = none
      · -- the start tile is still in the frontier, with its seeded entry
        have hsome : alookup opn p ≠ none := by
          rcases inv.startIn with h1 | h1
          · exact h1
          · exact absurd hs h1
        obtain ⟨ds, hds⟩ : ∃ ds, alookup opn p = some ds := by
          cases hos : alookup opn p with
          | none => exact absurd hos hsome
          | some ds => exact ⟨ds, rfl⟩
        obtain ⟨_, hdsf, h3⟩ := inv.openE p ds hds
        have hds0 : ds.g = 0 := by
          rcases h3 with ⟨_, h, _⟩ | ⟨hne, _⟩
          · exact h
          · exact absurd rfl hne
        have hfle : d.f ≤ ds.f := hmin (p, ds) (mem_of_alookup_eq_some hds)
        obtain ⟨_, hdf, _⟩ := inv.openE t d htd
        have hcons := chain_dist_le tiles p goal (q :: rest) p t hch hlast
        rw [hdf, hdsf, hds0] at hfle
        omega
      · simpa using hfirst 0 hs (isMinCostTo_self b tiles p)

theorem pop_optimal {b : Bounds} {tiles : List (GridPos × Entity)}
    {start goal : GridPos} {opn : List (GridPos × OpenData)}
    {closed : List (GridPos × GridPos)}
    (inv : AInv b tiles start goal opn closed) {t : GridPos} {d : OpenData}
    (hsel : selectMin opn = some (t, d)) :
    IsMinCostTo b tiles start t d.g := by
  have htd : alookup opn t = some d :=
    alookup_eq_some_of_mem inv.ndO (selectMin_eq_some hsel).1
  obtain ⟨restd, hrouted, hcostd⟩ := ainv_open_attained inv htd
  refine ⟨⟨restd, hrouted, hcostd⟩, ?_⟩
  intro rest hroute
  obtain ⟨hch, hlast⟩ := hroute
  exact (popt_aux inv hsel rest start hch hlast).2 rfl

/-! ## Expansion-step lemmas -/

theorem expandNeighbor_lookup2 {goal : GridPos} {g : Nat} {tower : Option Entity}
    {tile : GridPos} {closed : List (GridPos × GridPos)}
    {opn : List (GridPos × OpenData)} {nb : GridPos × Option Entity}
    {n : GridPos} {d' : OpenData}
    (h : alookup (expandNeighbor goal g tower tile closed opn nb) n = some d') :
    alookup opn n = some d' ∨
      (n = nb.1 ∧ d' = relaxEntry goal g tower tile nb ∧ alookup closed n = none) := by
  unfold expandNeighbor at h
  by_cases hc : (alookup closed nb.1).isSome
  · rw [if_pos hc] at h
    exact Or.inl h
  · rw [if_neg hc] at h
    have hcn : alookup closed nb.1 = none := by
      cases hcc : alookup closed nb.1 with
      | none => rfl
      | some v => rw [hcc] at hc; exact absurd rfl hc
    rcases ho : alookup opn nb.1 with _ | d0 <;> rw [ho] at h <;> dsimp only at h
    · by_cases hn : n = nb.1
      · rw [hn, alookup_ainsert_self] at h
        exact Or.inr ⟨hn, (Option.some.inj h).symm, hn ▸ hcn⟩
      · rw [alookup_ainsert_ne _ _ _ _ hn] at h
        exact Or.inl h
    · by_cases hlt : g + (if nb.2 = tower then 1 else 10) < d0.g
      · rw [if_pos hlt] at h
        by_cases hn : n = nb.1
        · rw [hn, alookup_ainsert_self] at h
          exact Or.inr ⟨hn, (Option.some.inj h).symm, hn ▸ hcn⟩
        · rw [alookup_ainsert_ne _ _ _ _ hn] at h
          exact Or.inl h
      · rw [if_neg hlt] at h
        exact Or.inl h

theorem expandList_lookup2 {goal : GridPos} {g : Nat} {tower : Option Entity}
    {tile : GridPos} {closed : List (GridPos × GridPos)} :
    ∀ (nbs : List (GridPos × Option Entity)) (opn : List (GridPos × OpenData))
      (n : GridPos) (d' : OpenData),
      alookup (expandList goal g tower tile closed nbs opn) n = some d' →
      alookup opn n = some d' ∨
        ∃ nb ∈ nbs, n = nb.1 ∧ d' = relaxEntry goal g tower tile nb ∧
          alookup closed n = none := by
  intro nbs
  induction nbs with
  | nil =>
      intro opn n d' h
      exact Or.inl h
  | cons nb nbs ih =>
      intro opn n d' h
      rcases ih _ n d' h with h2 | ⟨nb', hmem, he⟩
      · rcases expandNeighbor_lookup2 h2 with h3 | h3
        · exact Or.inl h3
        · exact Or.inr ⟨nb, List.mem_cons_self _ _, h3⟩
      · exact Or.inr ⟨nb', List.mem_cons_of_mem _ hmem, he⟩

theorem expandNeighbor_mono {goal : GridPos} {g : Nat} {tower : Option Entity}
    {tile : GridPos} {closed : List (GridPos × GridPos)}
    {opn : List (GridPos × OpenData)} {nb : GridPos × Option Entity}
    {q : GridPos} {dq : OpenData} (h : alookup opn q = some dq) :
    ∃ dq', alookup (expandNeighbor goal g tower tile closed opn nb) q = some dq' ∧
      dq'.g ≤ dq.g := by
  unfold expandNeighbor
  by_cases hc : (alookup closed nb.1).isSome
  · rw [if_pos hc]
    exact ⟨dq, h, Nat.le_refl _⟩
  · rw [if_neg hc]
    rcases ho : alookup opn nb.1 with _ | d0 <;> dsimp only
    · by_cases hn : q = nb.1
      · rw [hn, ho] at h
        cases h
      · rw [alookup_ainsert_ne _ _ _ _ hn]
        exact ⟨dq, h, Nat.le_refl _⟩
    · by_cases hlt : g + (if nb.2 = tower then 1 else 10) < d0.g
      · rw [if_pos hlt]
        by_cases hn : q = nb.1
        · subst hn
          rw [ho] at h
          have : d0 = dq := Option.some.inj h
          subst this
          refine ⟨relaxEntry goal g tower tile nb, alookup_ainsert_self _ _ _, ?_⟩
          show g + (if nb.2 = tower then 1 else 10) ≤ d0.g
          omega
        · rw [alookup_ainsert_ne _ _ _ _ hn]
          exact ⟨dq, h, Nat.le_refl _⟩
      · rw [if_neg hlt]
        exact ⟨dq, h, Nat.le_refl _⟩

theorem expandList_mono {goal : GridPos} {g : Nat} {tower : Option Entity}
    {tile : GridPos} {closed : List (GridPos × GridPos)} :
    ∀ (nbs : List (GridPos × Option Entity)) (opn : List (GridPos × OpenData))
      (q : GridPos) (dq : OpenData), alookup opn q = some dq →
      ∃ dq', alookup (expandList goal g tower tile closed nbs opn) q = some dq' ∧
        dq'.g ≤ dq.g := by
  intro nbs
  induction nbs with
  | nil =>
      intro opn q dq h
      exact ⟨dq, h, Nat.le_refl _⟩
  | cons nb nbs ih =>
      intro opn q dq h
      obtain ⟨dq1, h1, hle1⟩ := @expandNeighbor_mono goal g tower tile closed opn nb q dq h
      obtain ⟨dq2, h2, hle2⟩ := ih _ q dq1 h1
      exact ⟨dq2, h2, Nat.le_trans hle2 hle1⟩

theorem expandList_covers {goal : GridPos} {g : Nat} {tower : Option Entity}
    {tile : GridPos} {closed : List (GridPos × GridPos)} :
    ∀ (nbs : List (GridPos × Option Entity)) (opn : List (GridPos × OpenData))
      (nb : GridPos × Option Entity), nb ∈ nbs → alookup closed nb.1 = none →
      ∃ dq', alookup (expandList goal g tower tile closed nbs opn) nb.1 = some dq' ∧
        dq'.g ≤ g + (if nb.2 = tower then 1 else 10) := by
  intro nbs
  induction nbs with
  | nil =>
      intro opn nb hmem _
      cases hmem
  | cons nb0 nbs ih =>
      intro opn nb hmem hcn
      rcases List.mem_cons.mp hmem with rfl | hmem'
      · -- processed first: afterwards the entry exists with the required bound
        have hguard : ¬ (alookup closed nb.1).isSome := by
          rw [hcn]
          exact Bool.false_ne_true
        have hhead : ∃ d1,
            alookup (expandNeighbor goal g tower tile closed opn nb) nb.1 = some d1 ∧
            d1.g ≤ g + (if nb.2 = tower then 1 else 10) := by
          unfold expandNeighbor
          rw [if_neg hguard]
          rcases ho : alookup opn nb.1 with _ | d0 <;> dsimp only
          · exact ⟨relaxEntry goal g tower tile nb, alookup_ainsert_self _ _ _,
              Nat.le_refl _⟩
          · by_cases hlt : g + (if nb.2 = tower then 1 else 10) < d0.g
            · rw [if_pos hlt]
              exact ⟨relaxEntry goal g tower tile nb, alookup_ainsert_self _ _ _,
                Nat.le_refl _⟩
            · rw [if_neg hlt]
              exact ⟨d0, ho, by omega⟩
        obtain ⟨d1, h1, hle1⟩ := hhead
        obtain ⟨d2, h2, hle2⟩ := expandList_mono nbs _ nb.1 d1 h1
        exact ⟨d2, h2, Nat.le_trans hle2 hle1⟩
      · exact ih _ nb hmem' hcn

theorem expandNeighbor_nodup {goal : GridPos} {g : Nat} {tower : Option Entity}
    {tile : GridPos} {closed : List (GridPos × GridPos)}
    {opn : List (GridPos × OpenData)} (nb : GridPos × Option Entity)
    (h : (opn.map Prod.fst).Nodup) :
    ((expandNeighbor goal g tower tile closed opn nb).map Prod.fst).Nodup := by
  unfold expandNeighbor
  split
  · exact h
  · rcases alookup opn nb.1 with _ | d0 <;> dsimp only
    · exact nodup_keys_ainsert _ _ _ h
    · by_cases hlt : g + (if nb.2 = tower then 1 else 10) < d0.g
      · rw [if_pos hlt]
        exact nodup_keys_ainsert _ _ _ h
      · rw [if_neg hlt]
        exact h

theorem expandList_nodup {goal : GridPos} {g : Nat} {tower : Option Entity}
    {tile : GridPos} {closed : List (GridPos × GridPos)} :
    ∀ (nbs : List (GridPos × Option Entity)) (opn : List (GridPos × OpenData)),
      (opn.map Prod.fst).Nodup →
      ((expandList goal g tower tile closed nbs opn).map Prod.fst).Nodup := by
  intro nbs
  induction nbs with
  | nil => intro opn h; exact h
  | cons nb nbs ih => intro opn h; exact ih _ (expandNeighbor_nodup nb h)

/-! ## Preservation of the search invariant across one loop iteration -/

theorem relaxEntry_g (goal : GridPos) (g : Nat) (tower : Option Entity)
    (tile : GridPos) (nb : GridPos × Option Entity) :
    (relaxEntry goal g tower tile nb).g = g + (if nb.2 = tower then 1 else 10) := rfl

theorem ainv_preserved {b : Bounds} {tiles : List (GridPos × Entity)}
    {start goal : GridPos} {opn : List (GridPos × OpenData)}
    {closed : List (GridPos × GridPos)}
    (inv : AInv b tiles start goal opn closed) {t : GridPos} {d : OpenData}
    (hsel : selectMin opn = some (t, d)) :
    AInv b tiles start goal
      (expandList goal d.g d.tower t (ainsert closed t d.parent)
        (neighbors b tiles t) (aerase opn t))
      (ainsert closed t d.parent) := by
  have htd : alookup opn t = some d :=
    alookup_eq_some_of_mem inv.ndO (selectMin_eq_some hsel).1
  have hct : alookup closed t = none := by
    by_cases hc : alookup closed t = none
    · exact hc
    · have := inv.disj t hc
      rw [this] at htd
      cases htd
  have hpopt : IsMinCostTo b tiles start t d.g := pop_optimal inv hsel
  obtain ⟨htower, htf, ht3⟩ := inv.openE t d htd
  have hct' : alookup (ainsert closed t d.parent) t = some d.parent :=
    alookup_ainsert_self _ _ _
  have hlen' : (ainsert closed t d.parent).length = closed.length + 1 :=
    ainsert_length_of_lookup_none _ hct
  -- the seeded start entry is never displaced by a relaxation
  have hstartrelax : ∀ dq', alookup
      (expandList goal d.g d.tower t (ainsert closed t d.parent)
        (neighbors b tiles t) (aerase opn t)) start = some dq' →
      alookup (ainsert closed t d.parent) start = none → dq'.g = 0 := by
    intro dq' hq hcs'
    have hst : start ≠ t := by
      intro he
      rw [he, hct'] at hcs'
      cases hcs'
    have hcs : alookup closed start = none := by
      rw [alookup_ainsert_ne _ _ _ _ hst] at hcs'
      exact hcs'
    have hos : ∃ ds, alookup opn start = some ds := by
      rcases inv.startIn with h1 | h1
      · cases hoss : alookup opn start with
        | none => exact absurd hoss h1
        | some ds => exact ⟨ds, rfl⟩
      · exact absurd hcs h1
    obtain ⟨ds, hds⟩ := hos
    have hds0 : ds.g = 0 := by
      obtain ⟨_, _, h3⟩ := inv.openE start ds hds
      rcases h3 with ⟨_, h, _⟩ | ⟨hne, _⟩
      · exact h
      · exact absurd rfl hne
    have hds' : alookup (aerase opn t) start = some ds := by
      rw [alookup_aerase, if_neg hst]
      exact hds
    obtain ⟨dm, hdm, hdmle⟩ := expandList_mono (neighbors b tiles t) _ start ds hds'
    rw [hq] at hdm
    have hde : dq' = dm := Option.some.inj hdm
    rw [hde]
    omega
  refine ⟨?_, ?_, ?_, ?_, ?_, ?_, ?_⟩
  · exact expandList_nodup _ _ (nodup_keys_aerase _ _ inv.ndO)
  · exact nodup_keys_ainsert _ _ _ inv.ndC
  · -- closed and frontier keys stay disjoint
    intro x hx
    cases hres : alookup (expandList goal d.g d.tower t (ainsert closed t d.parent)
        (neighbors b tiles t) (aerase opn t)) x with
    | none => rfl
    | some dq' =>
        exfalso
        rcases expandList_lookup2 _ _ x dq' hres with hold | ⟨nb, _, heq, _, hnone⟩
        · rw [alookup_aerase] at hold
          by_cases hxt : x = t
          · rw [if_pos hxt] at hold
            cases hold
          · rw [if_neg hxt] at hold
            have hcx : alookup closed x = none := by
              by_cases hc : alookup closed x = none
              · exact hc
              · have := inv.disj x hc
                rw [this] at hold
                cases hold
            rw [alookup_ainsert_ne _ _ _ _ hxt] at hx
            exact hx hcx
        · exact hx hnone
  · -- the start tile stays in the frontier or the closed map
    rcases inv.startIn with h1 | h1
    · by_cases hst : start = t
      · refine Or.inr ?_
        rw [hst, hct']
        exact Option.noConfusion
      · obtain ⟨ds, hds⟩ : ∃ ds, alookup opn start = some ds := by
          cases hoss : alookup opn start with
          | none => exact absurd hoss h1
          | some ds => exact ⟨ds, rfl⟩
        have hds' : alookup (aerase opn t) start = some ds := by
          rw [alookup_aerase, if_neg hst]
          exact hds
        obtain ⟨dm, hdm, _⟩ := expandList_mono (neighbors b tiles t) _ start ds hds'
        refine Or.inl ?_
        rw [hdm]
        exact Option.noConfusion
    · exact Or.inr (alookup_ainsert_ne_none _ h1)
  · -- frontier entries remain well-formed
    intro q dq' hq
    rcases expandList_lookup2 _ _ q dq' hq with hold | ⟨nb, hnbmem, heq, hrelax, hqcn'⟩
    · rw [alookup_aerase] at hold
      by_cases hqt : q = t
      · rw [if_pos hqt] at hold
        cases hold
      · rw [if_neg hqt] at hold
        obtain ⟨h1, h2, h3⟩ := inv.openE q dq' hold
        refine ⟨h1, h2, ?_⟩
        rcases h3 with h3 | ⟨hne, hpc, hvs, gp, hgp, hdg⟩
        · exact Or.inl h3
        · exact Or.inr ⟨hne, alookup_ainsert_ne_none _ hpc, hvs, gp, hgp, hdg⟩
    · obtain ⟨n1, n2⟩ := nb
      obtain ⟨hmem1, hmem2, hocc⟩ := (mem_neighbors_iff b tiles t n1 n2).mp hnbmem
      dsimp only at heq hocc
      subst heq
      have hqns : q ≠ start := by
        intro he
        rw [he] at hq hqcn'
        have h0 := hstartrelax dq' hq hqcn'
        rw [hrelax, relaxEntry_g] at h0
        dsimp only at h0
        split at h0 <;> omega
      have hhop : (if n2 = d.tower then 1 else 10) = hopCost tiles start t q := by
        rw [hopCost, htower, hocc]
      subst hrelax
      dsimp only [relaxEntry]
      refine ⟨?_, rfl, Or.inr ⟨hqns, ?_, ⟨hmem1, hmem2⟩, d.g, hpopt, ?_⟩⟩
      · rw [occAt, if_neg hqns, hocc]
      · rw [hct']
        exact Option.noConfusion
      · rw [hhop]
  · -- the closed map remains a tree of minimal-cost parent chains
    intro u pu hu
    by_cases hut : u = t
    · subst hut
      rw [hct'] at hu
      have hpu : pu = d.parent := (Option.some.inj hu).symm
      rcases ht3 with ⟨hts, hg0, hpar⟩ | ⟨htns, hpc, hvs, gp, hgp, hdg⟩
      · -- the closed tile is the start tile itself
        refine ⟨[], ?_, ⟨List.Chain.nil, hts.symm⟩, ?_, ?_⟩
        · rw [hts]
          exact ParentChain.nil
        · intro rest' _
          exact Nat.zero_le _
        · simp
      · -- chain through the recorded parent
        obtain ⟨pp, hpp⟩ : ∃ pp, alookup closed d.parent = some pp := by
          cases hpc2 : alookup closed d.parent with
          | none => exact absurd hpc2 hpc
          | some pp => exact ⟨pp, rfl⟩
        obtain ⟨restp, hchp, hroutep, hminp, hlenp⟩ := inv.closedE d.parent pp hpp
        have hcostp : routeCost tiles start start restp = gp :=
          isMinCostTo_unique ⟨⟨restp, hroutep, rfl⟩, hminp⟩ hgp
        obtain ⟨hroutet, hcostt⟩ := isRouteTo_append tiles hroutep hvs
        refine ⟨restp ++ [u], ?_, hroutet, ?_, ?_⟩
        · exact ParentChain.cons htns hct' (parentChain_ainsert _ hct hchp)
        · intro rest' hrest'
          rw [hcostt, hcostp, ← hdg]
          exact hpopt.2 rest' hrest'
        · rw [List.length_append, hlen']
          simp only [List.length_cons, List.length_nil]
          omega
    · rw [alookup_ainsert_ne _ _ _ _ hut] at hu
      obtain ⟨restu, hchu, hrouteu, hminu, hlenu⟩ := inv.closedE u pu hu
      refine ⟨restu, parentChain_ainsert _ hct hchu, hrouteu, hminu, ?_⟩
      omega
  · -- every edge leaving the closed region is relaxed in the frontier
    intro x hx q hvsq hqn'
    have hqt : q ≠ t := by
      intro he
      rw [he, hct'] at hqn'
      cases hqn'
    have hqn : alookup closed q = none := by
      rw [alookup_ainsert_ne _ _ _ _ hqt] at hqn'
      exact hqn'
    by_cases hxt : x = t
    · subst hxt
      obtain ⟨hq1, hq2⟩ := hvsq
      have hnbmem : (q, alookup tiles q) ∈ neighbors b tiles x :=
        (mem_neighbors_iff b tiles x q _).mpr ⟨hq1, hq2, rfl⟩
      obtain ⟨dq', hdq', hle⟩ :=
        expandList_covers (neighbors b tiles x) _ (q, alookup tiles q) hnbmem hqn'
      refine ⟨dq', hdq', ?_⟩
      intro gx hgx
      have hgxd : gx = d.g := isMinCostTo_unique hgx hpopt
      have hhop : (if alookup tiles q = d.tower then 1 else 10) =
          hopCost tiles start x q := by
        rw [hopCost, htower]
      rw [hgxd, ← hhop]
      exact hle
    · have hx0 : alookup closed x ≠ none := by
        rw [alookup_ainsert_ne _ _ _ _ hxt] at hx
        exact hx
      obtain ⟨dq, hdq, hbound⟩ := inv.fringeE x hx0 q hvsq hqn
      have hdq' : alookup (aerase opn t) q = some dq := by
        rw [alookup_aerase, if_neg hqt]
        exact hdq
      obtain ⟨dq2, hdq2, hle2⟩ := expandList_mono (neighbors b tiles t) _ q dq hdq'
      refine ⟨dq2, hdq2, ?_⟩
      intro gx hgx
      exact Nat.le_trans hle2 (hbound gx hgx)

/-! ## The search loop: soundness and completeness -/

theorem ainv_init (b : Bounds) (tiles : List (GridPos × Entity))
    (start goal : GridPos) :
    AInv b tiles start goal
      [(start, ⟨start.distance_to goal, 0, start, none⟩)] [] := by
  refine ⟨by simp, by simp, ?_, ?_, ?_, ?_, ?_⟩
  · intro t h
    exact absurd rfl h
  · refine Or.inl ?_
    rw [alookup_cons, if_pos rfl]
    exact Option.noConfusion
  · intro t dd h
    rw [alookup_cons] at h
    by_cases hts : start = t
    · rw [if_pos hts] at h
      have hdd : dd = ⟨start.distance_to goal, 0, start, none⟩ :=
        (Option.some.inj h).symm
      subst hdd
      subst hts
      exact ⟨by rw [occAt, if_pos rfl], by simp, Or.inl ⟨rfl, rfl, rfl⟩⟩
    · rw [if_neg hts] at h
      cases h
  · intro t p h
    cases h
  · intro x hx
    exact absurd rfl hx

theorem selectMin_not_closed {b : Bounds} {tiles : List (GridPos × Entity)}
    {start goal : GridPos} {opn : List (GridPos × OpenData)}
    {closed : List (GridPos × GridPos)}
    (inv : AInv b tiles start goal opn closed) {t : GridPos} {d : OpenData}
    (hsel : selectMin opn = some (t, d)) : alookup closed t = none := by
  have htd : alookup opn t = some d :=
    alookup_eq_some_of_mem inv.ndO (selectMin_eq_some hsel).1
  by_cases hc : alookup closed t = none
  · exact hc
  · have := inv.disj t hc
    rw [this] at htd
    cases htd

theorem astarLoop_sound {b : Bounds} {tiles : List (GridPos × Entity)}
    {start goal : GridPos} :
    ∀ (fuel : Nat) (opn : List (GridPos × OpenData))
      (closed : List (GridPos × GridPos)), AInv b tiles start goal opn closed →
      ∀ cf, astarLoop b tiles goal fuel opn closed = some cf →
      ∃ rest, ParentChain cf start goal rest ∧ IsRouteTo b start goal rest ∧
        (∀ rest', IsRouteTo b start goal rest' →
          routeCost tiles start start rest ≤ routeCost tiles start start rest') ∧
        rest.length ≤ cf.length := by
  intro fuel
  induction fuel with
  | zero =>
      intro opn closed _ cf h
      cases h
  | succ f ih =>
      intro opn closed inv cf h
      rw [astarLoop_succ] at h
      cases hsel : selectMin opn with
      | none =>
          rw [hsel] at h
          cases h
      | some td =>
          obtain ⟨t, d⟩ := td
          rw [hsel] at h
          dsimp only at h
          by_cases htg : t = goal
          · subst htg
            rw [if_pos rfl] at h
            have hcf : cf = ainsert closed t d.parent := (Option.some.inj h).symm
            subst hcf
            have inv' := ainv_preserved inv hsel
            exact inv'.closedE t d.parent (alookup_ainsert_self _ _ _)
          · rw [if_neg htg] at h
            exact ih _ _ (ainv_preserved inv hsel) cf h

theorem chain_tiles_inBounds {b : Bounds} :
    ∀ (rest : List GridPos) (p : GridPos), List.Chain (ValidStep b) p rest →
      ∀ x ∈ rest, inBounds b x = true := by
  intro rest
  induction rest with
  | nil =>
      intro p _ x hx
      cases hx
  | cons q rest ih =>
      intro p hch x hx
      obtain ⟨hpq, hch'⟩ := List.chain_cons.mp hch
      rcases List.mem_cons.mp hx with rfl | hx
      · exact hpq.2
      · exact ih q hch' x hx

theorem closed_key_bound {b : Bounds} {tiles : List (GridPos × Entity)}
    {start goal : GridPos} {opn : List (GridPos × OpenData)}
    {closed : List (GridPos × GridPos)}
    (inv : AInv b tiles start goal opn closed) {t p : GridPos}
    (h : alookup closed t = some p) : t = start ∨ inBounds b t = true := by
  obtain ⟨rest, _, ⟨hch, hlast⟩, _, _⟩ := inv.closedE t p h
  cases rest with
  | nil => exact Or.inl hlast.symm
  | cons q rest' =>
      refine Or.inr ?_
      have hmem : t ∈ q :: rest' := by
        rw [← hlast, List.getLast_cons (List.cons_ne_nil _ _)]
        exact List.getLast_mem _
      exact chain_tiles_inBounds (q :: rest') start hch t hmem

theorem mem_allTiles {b : Bounds} {p : GridPos} (h : inBounds b p = true) :
    p ∈ allTiles b := by
  simp only [inBounds, Bool.and_eq_true, decide_eq_true_eq] at h
  simp only [allTiles, List.mem_flatMap, List.mem_map, List.mem_range]
  obtain ⟨r, c⟩ := p
  dsimp only at h ⊢
  refine ⟨r.toNat, by omega, c.toNat, by omega, ?_⟩
  have hr : Int.ofNat r.toNat = r := by
    rw [Int.ofNat_eq_natCast]
    omega
  have hc : Int.ofNat c.toNat = c := by
    rw [Int.ofNat_eq_natCast]
    omega
  rw [GridPos.new, hr, hc]

theorem length_allTiles (b : Bounds) :
    (allTiles b).length = b.rows.toNat * b.cols.toNat := by
  rw [allTiles]
  generalize b.rows.toNat = n
  induction n with
  | zero => simp
  | succ n ihn =>
      rw [List.range_succ, List.flatMap_append, List.length_append, ihn]
      simp [Nat.succ_mul]

theorem closed_length_le {b : Bounds} {tiles : List (GridPos × Entity)}
    {start goal : GridPos} {opn : List (GridPos × OpenData)}
    {closed : List (GridPos × GridPos)}
    (inv : AInv b tiles start goal opn closed) :
    closed.length ≤ b.rows.toNat * b.cols.toNat + 1 := by
  have hsub : closed.map Prod.fst ⊆ start :: allTiles b := by
    intro k hk
    obtain ⟨e, he, rfl⟩ := List.mem_map.mp hk
    have hlk : alookup closed e.1 = some e.2 := alookup_eq_some_of_mem inv.ndC he
    rcases closed_key_bound inv hlk with h | h
    · rw [h]
      exact List.mem_cons_self _ _
    · exact List.mem_cons_of_mem _ (mem_allTiles h)
  have hlen := (List.subperm_of_subset inv.ndC hsub).length_le
  rw [List.length_map] at hlen
  rw [List.length_cons, length_allTiles] at hlen
  omega

theorem opn_selectMin_of_crossing {b : Bounds} {tiles : List (GridPos × Entity)}
    {start goal : GridPos} {opn : List (GridPos × OpenData)}
    {closed : List (GridPos × GridPos)}
    (inv : AInv b tiles start goal opn closed) {u : GridPos}
    (hroute : ∃ rest, IsRouteTo b start u rest)
    (hu : alookup closed u = none) : selectMin opn ≠ none := by
  by_cases hs : alookup closed start = none
  · have hsome : alookup opn start ≠ none := by
      rcases inv.startIn with h1 | h1
      · exact h1
      · exact absurd hs h1
    obtain ⟨ds, hds⟩ : ∃ ds, alookup opn start = some ds := by
      cases ho : alookup opn start with
      | none => exact absurd ho hsome
      | some ds => exact ⟨ds, rfl⟩
    exact selectMin_ne_none (mem_of_alookup_eq_some hds)
  · obtain ⟨rest, hch, hlast⟩ : ∃ rest, List.Chain (ValidStep b) start rest ∧
        (start :: rest).getLast (List.cons_ne_nil _ _) = u := by
      obtain ⟨rest, hr1, hr2⟩ := hroute
      exact ⟨rest, hr1, hr2⟩
    have haux : ∀ (rest : List GridPos) (p : GridPos),
        List.Chain (ValidStep b) p rest →
        (p :: rest).getLast (List.cons_ne_nil _ _) = u →
        alookup closed p ≠ none →
        ∃ q dq, alookup opn q = some dq := by
      intro rest
      induction rest with
      | nil =>
          intro p _ hlast hp
          rw [show p = u from hlast, hu] at hp
          exact absurd rfl hp
      | cons q rest ihq =>
          intro p hch2 hlast2 hp
          obtain ⟨hpq, hch'⟩ := List.chain_cons.mp hch2
          by_cases hq : alookup closed q = none
          · obtain ⟨dq, hdq, _⟩ := inv.fringeE p hp q hpq hq
            exact ⟨q, dq, hdq⟩
          · refine ihq q hch' ?_ hq
            rw [← hlast2]
            exact (List.getLast_cons (List.cons_ne_nil _ _)).symm
    obtain ⟨q, dq, hdq⟩ := haux rest start hch hlast hs
    exact selectMin_ne_none (mem_of_alookup_eq_some hdq)

theorem astarLoop_complete {b : Bounds} {tiles : List (GridPos × Entity)}
    {start goal : GridPos} :
    ∀ (fuel : Nat) (opn : List (GridPos × OpenData))
      (closed : List (GridPos × GridPos)), AInv b tiles start goal opn closed →
      (∃ rest, IsRouteTo b start goal rest) →
      alookup closed goal = none →
      b.rows.toNat * b.cols.toNat + 2 ≤ closed.length + fuel →
      astarLoop b tiles goal fuel opn closed ≠ none := by
  intro fuel
  induction fuel with
  | zero =>
      intro opn closed inv _ _ hbound
      exfalso
      have := closed_length_le inv
      omega
  | succ f ih =>
      intro opn closed inv hroute hgoal hbound
      rw [astarLoop_succ]
      cases hsel : selectMin opn with
      | none => exact absurd hsel (opn_selectMin_of_crossing inv hroute hgoal)
      | some td =>
          obtain ⟨t, d⟩ := td
          dsimp only
          by_cases htg : t = goal
          · rw [if_pos htg]
            exact Option.noConfusion
          · rw [if_neg htg]
            have hct := selectMin_not_closed inv hsel
            refine ih _ _ (ainv_preserved inv hsel) hroute ?_ ?_
            · rw [alookup_ainsert_ne _ _ _ _ (fun h => htg h.symm)]
              exact hgoal
            · rw [ainsert_length_of_lookup_none _ hct]
              omega

/-- Claim C1 — `try_get_target` followed by the `get_path` reconstruction
is a correct and optimal route search: on success the reconstructed
sequence (reversed here into start-to-goal hop order; the code stores it
goal-first so the hop nearest the start is popped first) is a route from
the agent's current tile to its goal whose total cost — 1 per hop between
tiles of equal recorded occupant, 10 otherwise, with the start seeded
unoccupied — is the minimum achievable over all routes in the 4-neighbor
in-bounds grid graph; and it returns `None` exactly when no such route
exists, never a false negative. -/
theorem c1_astar_route_optimal (b : Bounds) (tiles : List (GridPos × Entity))
    (e : Enemy) :
    (match tryGetTarget b tiles e with
     | some closed =>
         IsRouteTo b e.current e.goal ((getPath closed e).reverse) ∧
         IsMinCostTo b tiles e.current e.goal
           (routeCost tiles e.current e.current ((getPath closed e).reverse))
     | none => ¬ ∃ rest, IsRouteTo b e.current e.goal rest) := by
  cases h : tryGetTarget b tiles e with
  | some cf =>
      dsimp only
      have h' : astarLoop b tiles e.goal (searchFuel b)
          [(e.current, ⟨e.current.distance_to e.goal, 0, e.current, none⟩)] [] =
          some cf := h
      obtain ⟨rest, hch, hroute, hmin, hlen⟩ :=
        astarLoop_sound (searchFuel b) _ _
          (ainv_init b tiles e.current e.goal) cf h'
      have hgp : getPath cf e = rest.reverse := by
        rw [getPath]
        rw [getPathAux_parentChain hch (cf.length + 1) (by omega) []]
        simp
      rw [hgp, List.reverse_reverse]
      exact ⟨hroute, ⟨⟨rest, hroute, rfl⟩, hmin⟩⟩
  | none =>
      dsimp only
      rintro ⟨rest, hroute⟩
      have h' : astarLoop b tiles e.goal (searchFuel b)
          [(e.current, ⟨e.current.distance_to e.goal, 0, e.current, none⟩)] [] =
          none := h
      exact astarLoop_complete (searchFuel b) _ []
        (ainv_init b tiles e.current e.goal) ⟨rest, hroute⟩ rfl
        (by rw [searchFuel]; omega) h'

end RoadblockTD
